import Mathlib

/-!
Verification development for src/tools/normalize_bib_abnt.py, a BibTeX/ABNT
normalizer.  Python strings are modelled as lists of characters; every
function below is a shallow embedding of the correspondingly named Python
function of the source file.  Python string methods (strip, lower, split,
replace, zero-padded formatting) and the handful of concrete regular
expressions used by the source are implemented as executable Lean functions
with Python's semantics (leftmost match, greedy with backtracking where the
pattern needs it).
-/

set_option maxRecDepth 20000

abbrev Str := List Char

/-- Python str.lower for the characters appearing in this code base:
ASCII letters plus the Latin accented letters used by the source. -/
def pyLowerChar (c : Char) : Char :=
  if 'A' ≤ c ∧ c ≤ 'Z' then Char.ofNat (c.toNat + 32)
  else if c = 'Á' then 'á' else if c = 'Â' then 'â' else if c = 'Ã' then 'ã'
  else if c = 'À' then 'à' else if c = 'Ç' then 'ç' else if c = 'É' then 'é'
  else if c = 'Ê' then 'ê' else if c = 'Í' then 'í' else if c = 'Ó' then 'ó'
  else if c = 'Ô' then 'ô' else if c = 'Õ' then 'õ' else if c = 'Ú' then 'ú'
  else if c = 'Ü' then 'ü' else c

/-- Python str.upper for the characters appearing in this code base. -/
def pyUpperChar (c : Char) : Char :=
  if 'a' ≤ c ∧ c ≤ 'z' then Char.ofNat (c.toNat - 32)
  else if c = 'á' then 'Á' else if c = 'â' then 'Â' else if c = 'ã' then 'Ã'
  else if c = 'à' then 'À' else if c = 'ç' then 'Ç' else if c = 'é' then 'É'
  else if c = 'ê' then 'Ê' else if c = 'í' then 'Í' else if c = 'ó' then 'Ó'
  else if c = 'ô' then 'Ô' else if c = 'õ' then 'Õ' else if c = 'ú' then 'Ú'
  else if c = 'ü' then 'Ü' else c

def pyLower (s : Str) : Str := s.map pyLowerChar

def pyUpper (s : Str) : Str := s.map pyUpperChar

/-- Python str.isspace / regex whitespace for the characters that occur here. -/
def pyIsSpace (c : Char) : Bool :=
  c = ' ' ∨ c = '\t' ∨ c = '\n' ∨ c = '\r' ∨ c = '\x0b' ∨ c = '\x0c'

def isAsciiDigit (c : Char) : Bool := '0' ≤ c ∧ c ≤ '9'

def isAsciiAlpha (c : Char) : Bool := ('a' ≤ c ∧ c ≤ 'z') ∨ ('A' ≤ c ∧ c ≤ 'Z')

def isAsciiAlnum (c : Char) : Bool := isAsciiAlpha c ∨ isAsciiDigit c

/-- Regex word character: alphanumerics and underscore (accented letters are
word characters for Python's re module as well). -/
def isWordChar (c : Char) : Bool :=
  isAsciiAlnum c ∨ c = '_' ∨ pyLowerChar c ≠ c ∨ pyUpperChar c ≠ c

def pyLStrip (s : Str) : Str := s.dropWhile pyIsSpace

def pyRStrip (s : Str) : Str := (s.reverse.dropWhile pyIsSpace).reverse

/-- Python str.strip with no argument. -/
def pyStrip (s : Str) : Str := pyRStrip (pyLStrip s)

/-- Python str.strip(chars): remove the given characters from both ends. -/
def pyStripSet (cs : Str) (s : Str) : Str :=
  ((s.dropWhile (· ∈ cs)).reverse.dropWhile (· ∈ cs)).reverse

/-- Python str.rstrip(chars). -/
def pyRStripSet (cs : Str) (s : Str) : Str :=
  (s.reverse.dropWhile (· ∈ cs)).reverse

/-- Python list-of-characters prefix test. -/
def isPrefix (p s : Str) : Bool := s.take p.length = p

/-- Python str.replace(pat, rep) for a nonempty pattern: replace every
leftmost non-overlapping occurrence.  Fuel-driven recursion. -/
def replaceAux (pat rep : Str) : Nat → Str → Str
  | 0, s => s
  | _ + 1, [] => []
  | fuel + 1, c :: cs =>
    if isPrefix pat (c :: cs) then
      rep ++ replaceAux pat rep fuel ((c :: cs).drop pat.length)
    else
      c :: replaceAux pat rep fuel cs

def pyReplace (s pat rep : Str) : Str :=
  if pat = [] then s else replaceAux pat rep s.length s

/-- Python str.split() with no argument: split on whitespace runs,
dropping empty pieces. -/
def splitWsAux : Nat → Str → List Str
  | 0, _ => []
  | _ + 1, [] => []
  | fuel + 1, s =>
    let s := s.dropWhile pyIsSpace
    match s with
    | [] => []
    | s =>
      let tok := s.takeWhile (fun c => ¬ pyIsSpace c)
      tok :: splitWsAux fuel (s.drop tok.length)

def pySplitWs (s : Str) : List Str := splitWsAux (s.length + 1) s

/-- Python str.split(sep, 1) for a single-character separator: split at the
first occurrence only. -/
def splitOnce (sep : Char) (s : Str) : Str × Str :=
  let l := s.takeWhile (· ≠ sep)
  (l, (s.drop l.length).drop 1)

/-- Split on every occurrence of a single character. -/
def splitAllAux (sep : Char) : Nat → Str → List Str
  | 0, _ => []
  | fuel + 1, s =>
    let l := s.takeWhile (· ≠ sep)
    let rest := s.drop l.length
    match rest with
    | [] => [l]
    | _ :: tl => l :: splitAllAux sep fuel tl

def splitAll (sep : Char) (s : Str) : List Str := splitAllAux sep (s.length + 1) s

/-- Python str.splitlines for newline-terminated text (the only line
terminator occurring in this code base is the newline character). -/
def pySplitLines (s : Str) : List Str :=
  if s = [] then []
  else
    let pieces := splitAll '\n' s
    if s.getLast? = some '\n' then pieces.dropLast else pieces

/-- Python sep.join. -/
def joinWith (sep : Str) : List Str → Str
  | [] => []
  | [x] => x
  | x :: y :: rest => x ++ sep ++ joinWith sep (y :: rest)

def joinNL (xs : List Str) : Str := joinWith ['\n'] xs

/-- Substring containment (Python in operator). -/
def containsSub (s pat : Str) : Bool :=
  match s with
  | [] => pat = []
  | _ :: tl => isPrefix pat s ∨ containsSub tl pat

def countChar (s : Str) (c : Char) : Nat := s.count c

def digitChar (d : Nat) : Char := Char.ofNat (48 + d)

def natDigitsAux : Nat → Nat → Str
  | 0, _ => []
  | _ + 1, 0 => []
  | fuel + 1, n => natDigitsAux fuel (n / 10) ++ [digitChar (n % 10)]

/-- Decimal digits of a natural number, most significant first. -/
def natDigits (n : Nat) : Str := if n = 0 then ['0'] else natDigitsAux (n + 1) n

def leftPad (c : Char) (w : Nat) (s : Str) : Str :=
  List.replicate (w - s.length) c ++ s

/-- Python zero-padded integer formatting: the counterpart of a {:0wd}
format specifier, sign included in the width. -/
def pyZPad (w : Nat) (n : Int) : Str :=
  if n < 0 then '-' :: leftPad '0' (w - 1) (natDigits n.natAbs)
  else leftPad '0' w (natDigits n.natAbs)

/-- Digits-and-underscores body of a Python integer literal: digit groups
separated by single underscores, as accepted by int(). -/
def intBodyOk : Nat → Str → Bool
  | 0, _ => false
  | _ + 1, [] => false
  | _ + 1, [c] => isAsciiDigit c
  | fuel + 1, c :: d :: rest =>
    if isAsciiDigit c then
      if d = '_' then
        match rest with
        | [] => false
        | r :: rs => isAsciiDigit r ∧ intBodyOk fuel (r :: rs)
      else isAsciiDigit d ∧ intBodyOk fuel (d :: rest)
    else false

def digitsVal (s : Str) : Nat :=
  s.foldl (fun acc c => if c = '_' then acc else acc * 10 + (c.toNat - 48)) 0

/-- Python int(str): optional sign, then digits with optional single
underscores between digits; surrounding whitespace stripped; none on
failure (the source wraps the call in try/except). -/
def pyInt (s : Str) : Option Int :=
  let t := pyStrip s
  match t with
  | '+' :: rest => if intBodyOk (rest.length + 1) rest then some (Int.ofNat (digitsVal rest)) else none
  | '-' :: rest => if intBodyOk (rest.length + 1) rest then some (-(Int.ofNat (digitsVal rest))) else none
  | rest => if intBodyOk (rest.length + 1) rest then some (Int.ofNat (digitsVal rest)) else none

/-- Collapse whitespace runs to single spaces: the regex substitution
sub(ws+, one space, s) used by the author formatter. -/
def subWsAux : Nat → Str → Str
  | 0, s => s
  | _ + 1, [] => []
  | fuel + 1, c :: cs =>
    if pyIsSpace c then ' ' :: subWsAux fuel (cs.dropWhile pyIsSpace)
    else c :: subWsAux fuel cs

def subWsToSpace (s : Str) : Str := subWsAux s.length s

/-- Case-insensitive prefix test against a lowercase pattern. -/
def isPrefixCI (pat s : Str) : Bool := pyLower (s.take pat.length) = pat

/-- Generic leftmost scan returning the text before the match and the
matcher result (matchers never match the empty string here). -/
def scanPairAux (m : Str → Option Str) : Nat → Str → Option (Str × Str)
  | 0, _ => none
  | fuel + 1, s =>
    match m s with
    | some r => some ([], r)
    | none =>
      match s with
      | [] => none
      | c :: cs => (scanPairAux m fuel cs).map (fun pr => (c :: pr.1, pr.2))

def scanPair (m : Str → Option Str) (s : Str) : Option (Str × Str) :=
  scanPairAux m (s.length + 1) s

def scanFindAux {α : Type} (m : Str → Option α) : Nat → Str → Option α
  | 0, _ => none
  | fuel + 1, s =>
    match m s with
    | some r => some r
    | none =>
      match s with
      | [] => none
      | _ :: cs => scanFindAux m fuel cs

def scanFind {α : Type} (m : Str → Option α) (s : Str) : Option α :=
  scanFindAux m (s.length + 1) s

/-- Matcher for the availability-marker regex head (the word for available
in Portuguese, optional accent, whitespace, then the em: token), applied
case-insensitively; yields the remainder after the colon. -/
def matchDispHeader (s : Str) : Option Str :=
  if isPrefixCI "dispon".data s then
    match s.drop 6 with
    | c :: s2 =>
      if (pyLowerChar c = 'i' ∨ pyLowerChar c = 'í') ∧ isPrefixCI "vel".data s2 then
        let s3 := s2.drop 3
        let w := s3.takeWhile pyIsSpace
        if w ≠ [] ∧ isPrefixCI "em:".data (s3.drop w.length) then
          some ((s3.drop w.length).drop 3)
        else none
      else none
    | [] => none
  else none

/-- Matcher for the accessed-on-marker regex head (acess then o or ado,
alternation tried in that order, whitespace, em:), case-insensitive;
yields the remainder after the colon. -/
def matchAcessoHeader (s : Str) : Option Str :=
  if isPrefixCI "acess".data s then
    let s1 := s.drop 5
    let tryTail : Str → Option Str := fun t =>
      let w := t.takeWhile pyIsSpace
      if w ≠ [] ∧ isPrefixCI "em:".data (t.drop w.length) then
        some ((t.drop w.length).drop 3)
      else none
    match (if isPrefixCI "o".data s1 then tryTail (s1.drop 1) else none) with
    | some r => some r
    | none => if isPrefixCI "ado".data s1 then tryTail (s1.drop 3) else none
  else none

/-- The URL capture of extract_url_and_access: after the availability
header, optional whitespace, then one or more characters that are not
whitespace, comma or semicolon. -/
def matchDispUrl (s : Str) : Option Str :=
  match matchDispHeader s with
  | some r =>
    let r2 := r.dropWhile pyIsSpace
    let tok := r2.takeWhile (fun c => ¬ pyIsSpace c ∧ c ≠ ',' ∧ c ≠ ';')
    if tok = [] then none else some tok
  | none => none

def notDotSemiNl (c : Char) : Bool := c ≠ '.' ∧ c ≠ ';' ∧ c ≠ '\n'

/-- Backtracking for the accessed-on date capture: the regex consumes
whitespace greedily but gives characters back so that the capture class
(anything but period, semicolon, newline) can take at least one. -/
def acessoCapAux (w rest : Str) : Nat → Option Str
  | 0 =>
    let tok := (w ++ rest).takeWhile notDotSemiNl
    if tok = [] then none else some tok
  | k + 1 =>
    let tok := (w.drop (k + 1) ++ rest).takeWhile notDotSemiNl
    if tok = [] then acessoCapAux w rest k else some tok

/-- The date capture of extract_url_and_access. -/
def matchAcessoCap (s : Str) : Option Str :=
  match matchAcessoHeader s with
  | some r =>
    let w := r.takeWhile pyIsSpace
    acessoCapAux w (r.drop w.length) w.length
  | none => none

/-- Matcher for an http or https URL (scheme, colon-slash-slash, one or
more non-space characters), returning the match and the remainder. -/
def matchHttp (ci : Bool) (s : Str) : Option (Str × Str) :=
  let pre : Str → Str → Bool := fun p t => if ci then isPrefixCI p t else isPrefix p t
  if pre "http".data s then
    let attempt : Nat → Option (Str × Str) := fun off =>
      let t := s.drop off
      if pre "://".data t then
        let tok := (t.drop 3).takeWhile (fun c => ¬ pyIsSpace c)
        if tok = [] then none
        else
          let n := off + 3 + tok.length
          some (s.take n, s.drop n)
      else none
    match (if pre "s".data (s.drop 4) then attempt 5 else none) with
    | some r => some r
    | none => attempt 4
  else none

/-- Generic global substitution by deletion: every leftmost match is
removed; matches always consume at least one character. -/
def subAllAux (m : Str → Option Str) : Nat → Str → Str
  | 0, s => s
  | _ + 1, [] => []
  | fuel + 1, c :: cs =>
    match m (c :: cs) with
    | some rest => subAllAux m fuel rest
    | none => c :: subAllAux m fuel cs

def subAllDel (m : Str → Option Str) (s : Str) : Str := subAllAux m s.length s

/-- The availability-marker removal of is_trivial_note: header followed by
one or more characters other than period, semicolon, newline. -/
def matchTrivDisp (s : Str) : Option Str :=
  match matchDispHeader s with
  | some r =>
    let tok := r.takeWhile notDotSemiNl
    if tok = [] then none else some (r.drop tok.length)
  | none => none

/-- The accessed-on-marker removal of is_trivial_note. -/
def matchTrivAcesso (s : Str) : Option Str :=
  match matchAcessoHeader s with
  | some r =>
    let tok := r.takeWhile notDotSemiNl
    if tok = [] then none else some (r.drop tok.length)
  | none => none

def punctClass (c : Char) : Bool :=
  c = '<' ∨ c = '>' ∨ c = '.' ∨ c = ',' ∨ c = ';' ∨ c = ':' ∨ pyIsSpace c

/-- Replace every run of angle brackets, whitespace and listed punctuation
by a single space. -/
def subPunctAux : Nat → Str → Str
  | 0, s => s
  | _ + 1, [] => []
  | fuel + 1, c :: cs =>
    if punctClass c then ' ' :: subPunctAux fuel ((c :: cs).dropWhile punctClass)
    else c :: subPunctAux fuel cs

def subPunct (s : Str) : Str := subPunctAux s.length s

/-- Word-boundary test between an optional previous and current character. -/
def wordB (prev cur : Option Char) : Bool :=
  let pw := match prev with | some c => isWordChar c | none => false
  let cw := match cur with | some c => isWordChar c | none => false
  pw ≠ cw

def domCls (c : Char) : Bool := isAsciiAlnum c ∨ c = '.' ∨ c = '-'

/-- Backtracking over the greedy domain-body class: take b characters of
the class run, then require a period, at least two letters, and an
optional slash-path; b descends from the full run length. -/
def domTryB (s1 : Str) : Nat → Option Str
  | 0 => none
  | b + 1 =>
    let body := s1.take (b + 1)
    let rest := s1.drop (b + 1)
    match rest with
    | '.' :: r2 =>
      let letters := r2.takeWhile isAsciiAlpha
      if letters.length ≥ 2 then
        let after := r2.drop letters.length
        let slash : Str :=
          match after with
          | '/' :: a2 => '/' :: a2.takeWhile (fun c => ¬ pyIsSpace c)
          | _ => []
        some (body ++ '.' :: letters ++ slash)
      else domTryB s1 b
    | _ => domTryB s1 b

/-- The bare-domain fallback regex of clean_url_value at one position:
word boundary, optional www-dot, class body, period, two or more letters,
optional slash-path. -/
def matchDomainAt (prev : Option Char) (s : Str) : Option Str :=
  if wordB prev s.head? then
    let tryVariant : Str → Str → Option Str := fun pfx s1 =>
      (domTryB s1 (s1.takeWhile domCls).length).map (fun m => pfx ++ m)
    match (if isPrefix "www.".data s then tryVariant "www.".data (s.drop 4) else none) with
    | some m => some m
    | none => tryVariant [] s
  else none

def scanDomainAux : Option Char → Nat → Str → Option Str
  | _, 0, _ => none
  | prev, fuel + 1, s =>
    match matchDomainAt prev s with
    | some m => some m
    | none =>
      match s with
      | [] => none
      | c :: cs => scanDomainAux (some c) fuel cs

def scanDomain (s : Str) : Option Str := scanDomainAux none (s.length + 1) s

/-- Matcher for the et-al regex: word boundary, et, optional whitespace,
al, optional period, word boundary; case-insensitive.  Returns the last
matched character (for later boundary checks) and the remainder. -/
def matchEtAl (prev : Option Char) (s : Str) : Option (Char × Str) :=
  if wordB prev s.head? ∧ isPrefixCI "et".data s then
    let s1 := s.drop 2
    let w := s1.takeWhile pyIsSpace
    let s2 := s1.drop w.length
    if isPrefixCI "al".data s2 then
      let s3 := s2.drop 2
      match s3 with
      | '.' :: s4 =>
        if wordB (some '.') s4.head? then some ('.', s4)
        else if wordB (some 'l') s3.head? then some ('l', s3)
        else none
      | _ => if wordB (some 'l') s3.head? then some ('l', s3) else none
    else none
  else none

/-- Global substitution of the et-al regex by the text: and others. -/
def subEtAlAux : Option Char → Nat → Str → Str
  | _, 0, s => s
  | _, _ + 1, [] => []
  | prev, fuel + 1, c :: cs =>
    match matchEtAl prev (c :: cs) with
    | some (lastc, rest) => "and others".data ++ subEtAlAux (some lastc) fuel rest
    | none => c :: subEtAlAux (some c) fuel cs

def subEtAl (s : Str) : Str := subEtAlAux none s.length s

/-- One-position test of the others regex: word boundary, others, optional
period, word boundary; case-insensitive. -/
def matchOthersAt (prev : Option Char) (s : Str) : Bool :=
  if wordB prev s.head? ∧ isPrefixCI "others".data s then
    let s1 := s.drop 6
    match s1 with
    | '.' :: s2 => wordB (some '.') s2.head? ∨ wordB (some 's') s1.head?
    | _ => wordB (some 's') s1.head?
  else false

def searchOthersAux : Option Char → Nat → Str → Bool
  | _, 0, _ => false
  | prev, fuel + 1, s =>
    if matchOthersAt prev s then true
    else
      match s with
      | [] => false
      | c :: cs => searchOthersAux (some c) fuel cs

def searchOthers (s : Str) : Bool := searchOthersAux none (s.length + 1) s

/-- Matcher for the author-list separator regex: whitespace, the word and,
whitespace (case-sensitive); yields the remainder. -/
def matchAndSep (s : Str) : Option Str :=
  let w := s.takeWhile pyIsSpace
  if w ≠ [] ∧ isPrefix "and".data (s.drop w.length) then
    let s1 := (s.drop w.length).drop 3
    let w2 := s1.takeWhile pyIsSpace
    if w2 ≠ [] then some (s1.drop w2.length) else none
  else none

def splitAndAux : Nat → Str → List Str
  | 0, s => [s]
  | fuel + 1, s =>
    match scanPair matchAndSep s with
    | some (before, rest) => before :: splitAndAux fuel rest
    | none => [s]

/-- The regex split on the and conjunction used by the author normalizer. -/
def splitAnd (s : Str) : List Str := splitAndAux (s.length + 1) s

/-- Text before the leftmost availability marker (regex split, first part). -/
def beforeDisp (s : Str) : Str :=
  match scanPair matchDispHeader s with
  | some pr => pr.1
  | none => s

/-- Text before the leftmost accessed-on marker (regex split, first part). -/
def beforeAcesso (s : Str) : Str :=
  match scanPair matchAcessoHeader s with
  | some pr => pr.1
  | none => s

/-- The search for an availability marker or an http scheme used on
bibliographic fields (case-insensitive). -/
def hasDispOrHttp (v : Str) : Bool :=
  (scanFind
    (fun s =>
      if (matchDispHeader s).isSome ∨ isPrefixCI "http://".data s ∨ isPrefixCI "https://".data s
      then some () else none) v).isSome

/-- The Portuguese month table of normalize_date_pt (dict literal of the
source, in order). -/
def monthsTable : List (Str × Nat) :=
  [("jan".data, 1), ("janeiro".data, 1),
   ("fev".data, 2), ("fevereiro".data, 2),
   ("mar".data, 3), ("março".data, 3), ("marco".data, 3),
   ("abr".data, 4), ("abril".data, 4),
   ("mai".data, 5), ("maio".data, 5),
   ("jun".data, 6), ("junho".data, 6),
   ("jul".data, 7), ("julho".data, 7),
   ("ago".data, 8), ("agosto".data, 8),
   ("set".data, 9), ("setembro".data, 9),
   ("out".data, 10), ("outubro".data, 10),
   ("nov".data, 11), ("novembro".data, 11),
   ("dez".data, 12), ("dezembro".data, 12)]

def monthsGet (x : Str) : Option Nat :=
  (monthsTable.find? (fun kv => kv.1 = x)).map (fun kv => kv.2)

def isLeapYear (y : Nat) : Bool := (y % 4 = 0 ∧ y % 100 ≠ 0) ∨ y % 400 = 0

def daysInMonth (y m : Nat) : Nat :=
  if m = 2 then (if isLeapYear y then 29 else 28)
  else if m = 4 ∨ m = 6 ∨ m = 9 ∨ m = 11 then 30
  else 31

def digitsToNat (s : Str) : Nat := s.foldl (fun a c => a * 10 + (c.toNat - 48)) 0

/-- Valid date-only ISO string: exactly four digits, dash, two digits,
dash, two digits, naming a real calendar date. -/
def isoShape (s : Str) : Bool :=
  match s with
  | [y1, y2, y3, y4, '-', m1, m2, '-', d1, d2] =>
    ([y1, y2, y3, y4, m1, m2, d1, d2].all isAsciiDigit) ∧
      (let y := digitsToNat [y1, y2, y3, y4]
       let m := digitsToNat [m1, m2]
       let d := digitsToNat [d1, d2]
       1 ≤ y ∧ 1 ≤ m ∧ m ≤ 12 ∧ 1 ≤ d ∧ d ≤ daysInMonth y m)
  | _ => false

/-- Models the datetime.fromisoformat fallback of normalize_date_pt,
restricted to the date-only ISO form (the only form the surrounding code
can meaningfully feed it): on a valid calendar date string
year-month-day the source returns dt.date().isoformat(), which reproduces
the input; anything else raises and yields none. -/
def isoFallback (s : Str) : Option Str := if isoShape s then some s else none

/-- Body of normalize_date_pt after tokenization: three tokens go through
the day/month/year branch (an unparseable day or year is the caught
exception, the missing month falls through to the ISO fallback); any other
token count goes to the ISO fallback directly. -/
def dateFromParts (s : Str) (parts : List Str) : Option Str :=
  match parts with
  | [p0, p1, p2] =>
    match pyInt p0, pyInt p2 with
    | some day, some year =>
      (match monthsGet (p1.take 3) with
       | some month =>
         some (pyZPad 4 year ++ '-' :: (pyZPad 2 (Int.ofNat month) ++ '-' :: pyZPad 2 day))
       | none => isoFallback s)
    | _, _ => none
  | _ => isoFallback s

/-- Shallow embedding of normalize_date_pt. -/
def normalizeDatePt (dateStr : Str) : Option Str :=
  let s := pyLower (pyStrip dateStr)
  let s := pyReplace s "de ".data []
  let s := pyReplace s ".".data []
  dateFromParts s (pySplitWs s)

/-- Shallow embedding of extract_url_and_access. -/
def extractUrlAndAccess (noteValue : Str) : Option Str × Option Str :=
  let note := pyReplace (pyReplace noteValue "<".data []) ">".data []
  let url : Option Str :=
    match scanFind matchDispUrl note with
    | some cand =>
      let cand := pyStrip cand
      some (if cand.getLast? = some '.' then cand.dropLast else cand)
    | none => none
  let urldate : Option Str :=
    match scanFind matchAcessoCap note with
    | some g => normalizeDatePt g
    | none => none
  (url, urldate)

/-- Shallow embedding of is_trivial_note. -/
def isTrivialNote (noteValue : Str) : Bool :=
  let t := subAllDel matchTrivDisp noteValue
  let t := subAllDel matchTrivAcesso t
  let t := subAllDel (fun s => (matchHttp true s).map (fun pr => pr.2)) t
  pyStrip (subPunct t) = []

/-- Shallow embedding of clean_url_value. -/
def cleanUrlValue (value : Str) : Option Str :=
  let candidate := pyReplace (pyReplace (pyStrip value) "<".data []) ">".data []
  match scanFind (fun s => (matchHttp false s).map (fun pr => pr.1)) candidate with
  | some url => some (pyRStripSet ".,);]".data url)
  | none =>
    match scanDomain candidate with
    | some m => some m
    | none => none

/-- Inner case of _smart_title_case: a token without hyphens. -/
def stcCore (token : Str) : Str :=
  if '.' ∈ token then pyUpper token
  else
    match pyLower token with
    | [] => []
    | c :: cs => pyUpperChar c :: cs

/-- Shallow embedding of _smart_title_case. -/
def smartTitleCase (token : Str) : Str :=
  if '-' ∈ token then joinWith ['-'] ((splitAll '-' token).map stcCore)
  else stcCore token

/-- The particle set of _format_author_abnt. -/
def particlesList : List Str :=
  ["da".data, "de".data, "do".data, "das".data, "dos".data, "e".data, "d".data,
   "di".data, "du".data, "van".data, "von".data, "der".data, "del".data,
   "della".data, "la".data, "le".data]

/-- The given-name formatting loop shared by both branches of
_format_author_abnt: particles stay lowercase except in first position. -/
def formatGivenParts (parts : List Str) : List Str :=
  (parts.enum).map (fun p =>
    let pl := pyStripSet ".,".data (pyLower p.2)
    if pl ∈ particlesList ∧ p.1 ≠ 0 then pl else smartTitleCase p.2)

/-- Shallow embedding of _format_author_abnt. -/
def formatAuthorAbnt (name : Str) : Str :=
  let name := subWsToSpace (pyStrip name)
  if name = [] then name
  else if ',' ∈ name then
    let pr := splitOnce ',' name
    let surname := pyUpper (pyStrip pr.1)
    let givenParts := pySplitWs (pyStrip pr.2)
    pyStrip (surname ++ ", ".data ++ joinWith [' '] (formatGivenParts givenParts))
  else
    let parts := pySplitWs name
    match parts with
    | [] => pyStrip (joinWith [' '] [])
    | [single] => pyUpper single
    | _ =>
      let surname := pyUpper (parts.getLastD [])
      let givenParts := parts.dropLast
      pyStrip (surname ++ ", ".data ++ joinWith [' '] (formatGivenParts givenParts))

/-- Per-element body of the author-list loop: strip braces and spaces,
skip empties, map any token containing the word others to the literal
others-with-period, format the rest. -/
def authorElem (p : Str) : Option Str :=
  let token := pyStripSet "\x7b\x7d ".data (pyStrip p)
  if token = [] then none
  else if searchOthers token then some "others.".data
  else some (formatAuthorAbnt token)

/-- Shallow embedding of normalize_author_list_abnt. -/
def normalizeAuthorList (authorValue : Str) : Str :=
  joinWith " and ".data ((splitAnd (pyStrip authorValue)).filterMap authorElem)

abbrev BibField := Str × Str × Str

def idtOf (f : BibField) : Str := f.1

def nameOf (f : BibField) : Str := f.2.1

def valOf (f : BibField) : Str := f.2.2

abbrev EEntry := Str × List BibField × List Str

abbrev EMap := List (Str × EEntry)

def emLookup (m : EMap) (k : Str) : Option EEntry :=
  (m.find? (fun kv => kv.1 = k)).map (fun kv => kv.2)

def emInsert (m : EMap) (k : Str) (v : EEntry) : EMap :=
  (m.filter (fun kv => kv.1 ≠ k)) ++ [(k, v)]

/-- First crossref field of a record (name compared lowercase), with its
value stripped, as the crossref-resolution loop of normalize_fields does. -/
def findCrossrefKey (fields : List BibField) : Option Str :=
  (fields.find? (fun f => pyLower (nameOf f) = "crossref".data)).map (fun f => pyStrip (valOf f))

def journalLikeNames : List Str :=
  ["journal".data, "publisher".data, "booktitle".data, "address".data]

/-- Loop state of normalize_fields: accumulated fields and the raw note
value remembered for later URL extraction. -/
structure NLoop where
  nf : List BibField
  note : Option Str
deriving DecidableEq

/-- Python truthiness of an optional string. -/
def truthyOpt : Option Str → Bool
  | some s => s ≠ []
  | none => false

def firstIndent (nf : List BibField) : Str :=
  match nf with
  | [] => []
  | f :: _ => idtOf f

/-- The per-field value rewrites of normalize_fields that precede the
journal-field split: url cleanup, doi prefix removal, author rewriting. -/
def transformValue (lname v : Str) : Str :=
  let v := if lname = "url".data then
      (match cleanUrlValue v with | some c => c | none => v)
    else v
  let v := if lname = "doi".data then
      pyStrip (pyReplace (pyReplace v "http://doi.org/".data []) "https://doi.org/".data [])
    else v
  if lname = "author".data then normalizeAuthorList (subEtAl v) else v

/-- The bibliographic-field split of normalize_fields: when a journal-like
field carries an availability marker or URL, extract url and urldate fields
(when those names are not yet present) and truncate the value before the
marker. -/
def journalExtra (existing : List Str) (idt lname v : Str) : List BibField × Str :=
  if lname ∈ journalLikeNames ∧ hasDispOrHttp v then
    let ex := extractUrlAndAccess v
    let v2 := pyRStripSet " .;".data (pyStrip (beforeDisp v))
    let e1 : List BibField := if truthyOpt ex.1 ∧ ¬ ("url".data ∈ existing) then
        [(idt, "url".data, ex.1.getD [])]
      else []
    let e2 : List BibField := if truthyOpt ex.2 ∧ ¬ ("urldate".data ∈ existing) then
        [(idt, "urldate".data, ex.2.getD [])]
      else []
    (e1 ++ e2, v2)
  else ([], v)

/-- The drop/rewrite tail of the loop body: the non-standard key field and
the bogus Bardin edition are dropped, the Bardin publisher and address are
corrected, everything else is emitted under its lowercased name. -/
def fieldEmit (key lname idt v : Str) : List BibField :=
  if lname = "key".data then []
  else if pyLower key = "bardin2016".data ∧ lname = "edition".data ∧ v = "70".data then []
  else
    let v := if pyLower key = "bardin2016".data ∧ lname = "publisher".data ∧
        (pyStripSet "\x7b\x7d ".data v = "São Paulo".data ∨
         pyStripSet "\x7b\x7d ".data v = "Sao Paulo".data) then "Edições 70".data else v
    let v := if pyLower key = "bardin2016".data ∧ lname = "address".data ∧ pyStrip v = [] then
        "São Paulo".data
      else v
    [(idt, lname, v)]

/-- One iteration of the per-field loop of normalize_fields. -/
def processField (key : Str) (st : NLoop) (f : BibField) : NLoop :=
  let lname := pyLower (nameOf f)
  let v := transformValue lname (pyStrip (valOf f))
  let note2 := if lname = "note".data then some v else st.note
  if lname = "note".data ∧ isTrivialNote v then { nf := st.nf, note := note2 }
  else
    let je := journalExtra (st.nf.map nameOf) (idtOf f) lname v
    { nf := st.nf ++ je.1 ++ fieldEmit key lname (idtOf f) je.2, note := note2 }

/-- The post-loop correction block for the known-bad Bardin record. -/
def bardinPost (key : Str) (nf : List BibField) : List BibField :=
  if pyLower key = "bardin2016".data then
    let names := nf.map nameOf
    let nf2 := if ¬ ("publisher".data ∈ names) then
        nf ++ [(firstIndent nf, "publisher".data, "Edições 70".data)]
      else nf
    if ¬ ("address".data ∈ names) then
      nf2 ++ [(firstIndent nf2, "address".data, "São Paulo".data)]
    else nf2
  else nf

/-- The post-loop url/urldate extraction from a remembered note value. -/
def notePost (note : Option Str) (nf : List BibField) : List BibField :=
  if truthyOpt note ∧ ¬ nf.any (fun f => nameOf f = "url".data) then
    let ex := extractUrlAndAccess (note.getD [])
    let nf2 := if truthyOpt ex.1 then nf ++ [(firstIndent nf, "url".data, ex.1.getD [])] else nf
    if truthyOpt ex.2 ∧ ¬ nf2.any (fun f => nameOf f = "urldate".data) then
      nf2 ++ [(firstIndent nf2, "urldate".data, ex.2.getD [])]
    else nf2
  else nf

def isYmd (s : Str) : Bool :=
  match s with
  | [a, b, c, d, '-', e, f, '-', g, h] => [a, b, c, d, e, f, g, h].all isAsciiDigit
  | _ => false

/-- The author-inference stage of the misc enrichment; names is the name
set snapshot taken at the start of the block. -/
def miscAuthor (key : Str) (names : List Str) (nf : List BibField) : List BibField :=
  if ¬ ("author".data ∈ names) then
    (match (if containsSub (pyLower key) "brasil".data then some "BRASIL".data
            else if isPrefix "w3c".data (pyLower key) then some "W3C".data
            else none) with
     | some a => nf ++ [(firstIndent nf, "author".data, a)]
     | none => nf)
  else nf

/-- The title-from-note stage of the misc enrichment. -/
def miscTitle (note : Option Str) (names : List Str) (nf : List BibField) : List BibField :=
  if ¬ ("title".data ∈ names) ∧ truthyOpt note then
    (let raw := pyReplace (pyReplace (note.getD []) "<".data []) ">".data []
     let candidate := pyStrip (beforeDisp raw)
     if candidate ≠ [] then
       let candidate := pyRStripSet " .;".data (pyStrip (beforeAcesso candidate))
       if candidate ≠ [] then nf ++ [(firstIndent nf, "title".data, candidate)] else nf
     else nf)
  else nf

/-- The year-from-urldate stage of the misc enrichment (the name set is
recomputed here, as in the source). -/
def miscYear (nf : List BibField) : List BibField :=
  if ¬ ("year".data ∈ nf.map nameOf) then
    (match nf.find? (fun f => nameOf f = "urldate".data) with
     | some f =>
       if isYmd (valOf f) then nf ++ [(firstIndent nf, "year".data, (valOf f).take 4)]
       else nf
     | none => nf)
  else nf

/-- The howpublished stage of the misc enrichment. -/
def miscHow (nf : List BibField) : List BibField :=
  if nf.any (fun f => nameOf f = "url".data) ∧
      ¬ nf.any (fun f => nameOf f = "howpublished".data) then
    nf ++ [(firstIndent nf, "howpublished".data, "Online".data)]
  else nf

/-- The misc-type enrichment block of normalize_fields. -/
def miscPost (entryType key : Str) (note : Option Str) (nf : List BibField) : List BibField :=
  if pyLower entryType = "misc".data then
    miscHow (miscYear (miscTitle note (nf.map nameOf) (miscAuthor key (nf.map nameOf) nf)))
  else nf

def matchDispWord (s : Str) : Bool :=
  if isPrefixCI "dispon".data s then
    match s.drop 6 with
    | c :: s2 => (pyLowerChar c = 'i' ∨ pyLowerChar c = 'í') ∧ isPrefixCI "vel".data s2
    | [] => false
  else false

def containsDispWord (s : Str) : Bool :=
  (scanFind (fun t => if matchDispWord t then some () else none) s).isSome

def matchEduc (s : Str) : Bool :=
  if isPrefix "educa".data s then
    match s.drop 5 with
    | c1 :: c2 :: c3 :: _ => (c1 = 'ç' ∨ c1 = 'c') ∧ (c2 = 'a' ∨ c2 = 'ã') ∧ c3 = 'o'
    | _ => false
  else false

def containsEduc (s : Str) : Bool :=
  (scanFind (fun t => if matchEduc t then some () else none) s).isSome

/-- Case-insensitive search for any of the Portuguese lexical markers of
the language-inference block. -/
def ptMarkerHit (text : Str) : Bool :=
  let low := pyLower text
  containsDispWord low ∨ containsSub low "acesso".data ∨ containsSub low "lei nº".data ∨
  containsSub low "decreto nº".data ∨ containsEduc low ∨ containsSub low "sociedade".data ∨
  containsSub low "são paulo".data ∨ containsSub low "edições".data ∨
  containsSub low "revista".data ∨ containsSub low "anais".data

/-- The language-inference block of normalize_fields. -/
def langPost (nf : List BibField) : List BibField :=
  if ¬ nf.any (fun f => nameOf f = "language".data) then
    if nf.any (fun f => ptMarkerHit (nameOf f ++ ' ' :: valOf f)) then
      nf ++ [(firstIndent nf, "language".data, "portuguese".data)]
    else nf
  else nf

/-- The loop and post-loop phases of normalize_fields, applied to the
crossref-merged field list. -/
def normalizeCore (entryType key : Str) (merged : List BibField) : List BibField :=
  let st := merged.foldl (processField key) { nf := [], note := none }
  langPost (miscPost entryType key st.note (notePost st.note (bardinPost key st.nf)))

/-- Shallow embedding of normalize_fields. -/
def normalizeFields (entryType key : Str) (fields : List BibField) (entriesMap : EMap) : List BibField :=
  let mergedFields :=
    match findCrossrefKey fields with
    | some ck =>
      if ck ≠ [] ∧ ¬ entriesMap.isEmpty ∧ (emLookup entriesMap ck).isSome then
        let parent := (emLookup entriesMap ck).getD ([], [], [])
        let childNames := fields.map (fun f => pyLower (nameOf f))
        let inherited := parent.2.1.filter (fun pf =>
          let pl := pyLower (nameOf pf)
          ¬ (pl ∈ childNames) ∧ pl ≠ "key".data ∧ pl ≠ "crossref".data)
        (fields ++ inherited).filter (fun f => pyLower (nameOf f) ≠ "crossref".data)
      else fields
    | none => fields
  normalizeCore entryType key mergedFields

/-- The canonical field-order table of order_fields. -/
def orderMapGet (t : Str) : List Str :=
  if t = "article".data then
    ["author", "title", "journal", "volume", "number", "pages", "year", "doi",
     "url", "urldate", "language"].map String.data
  else if t = "book".data then
    ["author", "title", "edition", "address", "publisher", "year", "isbn", "doi",
     "url", "urldate", "language"].map String.data
  else if t = "inproceedings".data then
    ["author", "title", "booktitle", "year", "organization", "publisher", "address",
     "pages", "doi", "url", "urldate", "language"].map String.data
  else if t = "techreport".data then
    ["author", "title", "institution", "year", "number", "address", "doi", "url",
     "urldate", "language"].map String.data
  else if t = "misc".data then
    ["author", "title", "year", "howpublished", "url", "urldate", "language",
     "note"].map String.data
  else []

/-- Desired-name pass of order_fields: emit the first field of each wanted
name not yet consumed, with the unified indent. -/
def pick1 (fields : List BibField) (istyle : Str) (acc : List BibField × List Str) (name : Str) :
    List BibField × List Str :=
  if name ∈ acc.2 then acc
  else
    match fields.find? (fun f => nameOf f = name) with
    | some f => (acc.1 ++ [(istyle, name, valOf f)], name :: acc.2)
    | none => acc

/-- Remaining-field pass of order_fields. -/
def pick2 (istyle : Str) (acc : List BibField × List Str) (f : BibField) : List BibField × List Str :=
  if nameOf f ∈ acc.2 then acc
  else (acc.1 ++ [(istyle, nameOf f, valOf f)], nameOf f :: acc.2)

/-- Shallow embedding of order_fields. -/
def orderFields (entryType : Str) (fields : List BibField) : List BibField :=
  let desired := orderMapGet (pyLower entryType)
  let istyle := firstIndent fields
  let acc1 := desired.foldl (pick1 fields istyle) ([], [])
  (fields.foldl (pick2 istyle) acc1).1

abbrev Fp := Str × Str × Str

/-- One step of the fingerprint loop of entry_fingerprint. -/
def fpStep (acc : Fp) (f : BibField) : Fp :=
  let lname := pyLower (nameOf f)
  if lname = "doi".data then (pyLower (pyStrip (valOf f)), acc.2.1, acc.2.2)
  else if lname = "url".data then (acc.1, pyLower (pyStrip (valOf f)), acc.2.2)
  else if lname = "title".data then
    (acc.1, acc.2.1,
     (pyLower (pyStrip (valOf f))).filter (fun c => ('a' ≤ c ∧ c ≤ 'z') ∨ isAsciiDigit c))
  else acc

/-- Shallow embedding of entry_fingerprint. -/
def entryFingerprint (entryType key : Str) (fields : List BibField) : Fp :=
  fields.foldl fpStep ([], [], [])

/-- Python any() over the fingerprint triple. -/
def anyFp (fp : Fp) : Bool := fp.1 ≠ [] ∨ fp.2.1 ≠ [] ∨ fp.2.2 ≠ []

structure SplitSt where
  entries : List Str
  current : List Str
  depth : Int
  inEntry : Bool

/-- One line of the split_entries scan. -/
def splitStep (st : SplitSt) (line : Str) : SplitSt :=
  if ¬ st.inEntry then
    if isPrefix "@".data (pyLStrip line) then
      { entries := st.entries, current := [line],
        depth := (Int.ofNat (line.count '\x7b')) - (Int.ofNat (line.count '\x7d')),
        inEntry := true }
    else st
  else
    let current := st.current ++ [line]
    let depth := st.depth + (Int.ofNat (line.count '\x7b')) - (Int.ofNat (line.count '\x7d'))
    if depth ≤ 0 then
      { entries := st.entries ++ [pyStrip (joinNL current)], current := [], depth := 0,
        inEntry := false }
    else { entries := st.entries, current := current, depth := depth, inEntry := true }

/-- Shallow embedding of split_entries. -/
def splitEntries (text : Str) : List Str :=
  let st := (pySplitLines text).foldl splitStep
    { entries := [], current := [], depth := 0, inEntry := false }
  if st.current ≠ [] then st.entries ++ [pyStrip (joinNL st.current)] else st.entries

/-- The ENTRY_START_RE match: whitespace, at-sign, letters, optional
whitespace, open brace, optional whitespace, key run, optional whitespace,
comma, optional trailing whitespace. -/
def parseEntryStart (line : Str) : Option (Str × Str) :=
  match line.dropWhile pyIsSpace with
  | '@' :: s1 =>
    let t := s1.takeWhile isAsciiAlpha
    if t = [] then none
    else
      match (s1.drop t.length).dropWhile pyIsSpace with
      | '\x7b' :: s3 =>
        let s4 := s3.dropWhile pyIsSpace
        let k := s4.takeWhile (fun c => ¬ pyIsSpace c ∧ c ≠ ',')
        if k = [] then none
        else
          match (s4.drop k.length).dropWhile pyIsSpace with
          | ',' :: s6 => if s6.dropWhile pyIsSpace = [] then some (t, k) else none
          | _ => none
      | _ => none
  | _ => none

/-- The FIELD_RE match on an already right-stripped line: indent, name,
equals sign, brace-delimited value (up to the last closing brace), optional
trailing comma. -/
def fieldMatch (stripped : Str) : Option BibField :=
  let indent := stripped.takeWhile pyIsSpace
  let r1 := stripped.drop indent.length
  match r1 with
  | c :: _ =>
    if isAsciiAlpha c then
      let nm := r1.takeWhile (fun ch => isAsciiAlnum ch ∨ ch = '_' ∨ ch = '-')
      match (r1.drop nm.length).dropWhile pyIsSpace with
      | '=' :: r3 =>
        (match r3.dropWhile pyIsSpace with
         | '\x7b' :: r4 =>
           let rev := r4.reverse
           let rev1 := rev.dropWhile pyIsSpace
           let rev2 := match rev1 with
             | ',' :: tl => tl.dropWhile pyIsSpace
             | _ => rev1
           (match rev2 with
            | '\x7d' :: body => some (indent, nm, body.reverse)
            | _ => none)
         | _ => none)
      | _ => none
    else none
  | [] => none

/-- Shallow embedding of parse_entry; none models the raised ValueError. -/
def parseEntry (entryText : Str) : Option (Str × Str × List BibField × List Str) :=
  match pySplitLines entryText with
  | [] => none
  | l0 :: body =>
    match parseEntryStart (pyRStrip l0) with
    | none => none
    | some tk =>
      let acc := (body.dropLast).foldl
        (fun (acc : List BibField × List Str) bl =>
          let stripped := pyRStrip bl
          if stripped = [] then (acc.1, acc.2 ++ [bl])
          else
            match fieldMatch stripped with
            | some f => (acc.1 ++ [f], acc.2)
            | none => (acc.1, acc.2 ++ [bl]))
        ([], [])
      some (tk.1, tk.2, acc.1, acc.2)

/-- Shallow embedding of build_entry.  The indent of every field tuple is
never the Python None, so the indent-style fallback of the source is dead
code; the parameter is kept for likeness. -/
def buildEntry (entryType key : Str) (fields : List BibField) (unknown : List Str)
    (indentStyle : Str) : Str :=
  let header := '@' :: (entryType ++ '\x7b' :: (key ++ [',']))
  let fieldLines := fields.map (fun f =>
    idtOf f ++ nameOf f ++ " = \x7b".data ++ valOf f ++ "\x7d,".data)
  joinNL (header :: (fieldLines ++ unknown ++ ["\x7d".data]))

abbrev PRec := Str × Str × List BibField × List Str

/-- The parse phase of main: a block that fails to parse becomes the
sentinel record with empty type carrying the raw text. -/
def parseResults (text : Str) : List PRec :=
  (splitEntries text).map (fun e =>
    match parseEntry e with
    | some r => r
    | none => ([], [], [], [e]))

/-- The key-to-record lookup main builds before normalizing. -/
def entriesMapOf (text : Str) : EMap :=
  (parseResults text).foldl
    (fun m r => if r.1 = [] then m else emInsert m r.2.1 (r.1, r.2.2.1, r.2.2.2)) []

/-- The normalize/order/deduplicate/serialize loop of main: returns the
emitted entry texts, the dropped counter and the changed counter. -/
def pipeAux (emap : EMap) : List PRec → List Fp → List Str × Nat × Nat
  | [], _ => ([], 0, 0)
  | r :: rest, seen =>
    let t := r.1
    let k := r.2.1
    let fs := r.2.2.1
    let u := r.2.2.2
    if t = [] then
      let pr := pipeAux emap rest seen
      (joinNL u :: pr.1, pr.2.1, pr.2.2)
    else
      let istyle := firstIndent fs
      let nf := orderFields t (normalizeFields t k fs emap)
      let fp := entryFingerprint t k nf
      if anyFp fp ∧ fp ∈ seen then
        let pr := pipeAux emap rest seen
        (pr.1, pr.2.1 + 1, pr.2.2)
      else
        let seen2 := if anyFp fp then fp :: seen else seen
        let pr := pipeAux emap rest seen2
        let chg : Nat := if nf ≠ fs then 1 else 0
        (buildEntry t k nf u istyle :: pr.1, pr.2.1, pr.2.2 + chg)

structure RunResult where
  out : Str
  processed : Nat
  changed : Nat
  dropped : Nat

/-- Shallow embedding of the pure core of main: document text in, rewritten
document text and the three reported counters out. -/
def runPipeline (text : Str) : RunResult :=
  let entries := splitEntries text
  let parsed := parseResults text
  let emap := entriesMapOf text
  let pr := pipeAux emap parsed []
  { out := joinWith "\n\n".data pr.1 ++ ['\n'], processed := entries.length,
    changed := pr.2.2, dropped := pr.2.1 }

/-- The deduplication decision of the main loop in isolation: for a list of
normalized records, the keep flag of each record and the dropped counter. -/
def dedupFlagsAux : List (Str × Str × List BibField) → List Fp → List Bool × Nat
  | [], _ => ([], 0)
  | r :: rest, seen =>
    let fp := entryFingerprint r.1 r.2.1 r.2.2
    if anyFp fp then
      if fp ∈ seen then
        let pr := dedupFlagsAux rest seen
        (false :: pr.1, pr.2 + 1)
      else
        let pr := dedupFlagsAux rest (fp :: seen)
        (true :: pr.1, pr.2)
    else
      let pr := dedupFlagsAux rest seen
      (true :: pr.1, pr.2)

def dedupFlags (rs : List (Str × Str × List BibField)) : List Bool × Nat :=
  dedupFlagsAux rs []

/-- The date format the specification asserts for the date parser: a
4-digit-year, 2-digit-month, 2-digit-day calendar date string.  This
definition follows the words of the spec (not the code), for comparison
with the code's behavior. -/
def specFourTwoTwoCalendarDate (r : Str) : Bool :=
  match r with
  | [y1, y2, y3, y4, '-', m1, m2, '-', d1, d2] =>
    ([y1, y2, y3, y4, m1, m2, d1, d2].all isAsciiDigit) ∧
      (let y := digitsToNat [y1, y2, y3, y4]
       let m := digitsToNat [m1, m2]
       let d := digitsToNat [d1, d2]
       1 ≤ y ∧ 1 ≤ m ∧ m ≤ 12 ∧ 1 ≤ d ∧ d ≤ daysInMonth y m)
  | _ => false

/-- The shape the first branch of normalize_date_pt actually emits: the
zero-padded month between the echoed, unvalidated year and day integers. -/
def fmtYmdEcho (y : Int) (m : Nat) (d : Int) : Str :=
  pyZPad 4 y ++ '-' :: (pyZPad 2 (Int.ofNat m) ++ '-' :: pyZPad 2 d)

theorem monthsGet_range (x : Str) (m : Nat) (h : monthsGet x = some m) : 1 ≤ m ∧ m ≤ 12 := by
  unfold monthsGet at h
  cases hf : monthsTable.find? (fun kv => kv.1 = x) with
  | none => rw [hf] at h; simp at h
  | some kv =>
    rw [hf] at h
    have hm2 : kv.2 = m := by cases h; rfl
    have hmem := List.mem_of_find?_eq_some hf
    have hall : ∀ kv ∈ monthsTable, 1 ≤ kv.2 ∧ kv.2 ≤ 12 := by decide
    have := hall kv hmem
    omega

theorem isoFallback_some (x r : Str) (h : isoFallback x = some r) : isoShape r = true := by
  unfold isoFallback at h
  split at h
  · cases h; assumption
  · cases h

theorem dateFromParts_shape (s : Str) (parts : List Str) :
    dateFromParts s parts = none ∨
      ∃ r, dateFromParts s parts = some r ∧
        ((∃ y m d, 1 ≤ m ∧ m ≤ 12 ∧ r = fmtYmdEcho y m d) ∨ isoShape r = true) := by
  have hiso : ∀ x : Str, isoFallback x = none ∨
      ∃ r, isoFallback x = some r ∧
        ((∃ y m d, 1 ≤ m ∧ m ≤ 12 ∧ r = fmtYmdEcho y m d) ∨ isoShape r = true) := by
    intro x
    cases h : isoFallback x with
    | none => exact Or.inl rfl
    | some r => exact Or.inr ⟨r, rfl, Or.inr (isoFallback_some _ _ h)⟩
  match parts with
  | [] => exact hiso s
  | [_] => exact hiso s
  | [_, _] => exact hiso s
  | _ :: _ :: _ :: _ :: _ => exact hiso s
  | [p0, p1, p2] =>
    dsimp only [dateFromParts]
    cases h0 : pyInt p0 with
    | none => exact Or.inl rfl
    | some day =>
      cases h2 : pyInt p2 with
      | none => exact Or.inl rfl
      | some year =>
        cases hm : monthsGet (p1.take 3) with
        | none => exact hiso s
        | some month =>
          right
          refine ⟨_, rfl, Or.inl ⟨year, month, day, (monthsGet_range _ _ hm).1,
            (monthsGet_range _ _ hm).2, rfl⟩⟩

/-- C5 (counterexample): the claim says the Portuguese date parser yields
either nothing or a 4-digit-year, 2-digit-month, 2-digit-day calendar date
string; but on the input 99 mar 2025 the parser yields 2025-03-99, which
is not a calendar date (no month has 99 days), refuting the claim. -/
theorem C5_counterexample :
    normalizeDatePt "99 mar 2025".data = some "2025-03-99".data ∧
    specFourTwoTwoCalendarDate "2025-03-99".data = false := by decide

/-- C5 (amended): for every input string the Portuguese date parser yields
no date, or a year-month-day string whose month component is a valid
zero-padded month 1 to 12 while the day and year components are the parsed
integers echoed back zero-padded but without calendar validation, or, via
the ISO fallback, a string that is itself a valid calendar date; the two
examples of the claim hold: 25 mar. 2025 normalizes to 2025-03-25 and
17 de abril de 2025 normalizes to 2025-04-17. -/
theorem C5_amended :
    (∀ s : Str, normalizeDatePt s = none ∨
      ∃ r, normalizeDatePt s = some r ∧
        ((∃ y m d, 1 ≤ m ∧ m ≤ 12 ∧ r = fmtYmdEcho y m d) ∨ isoShape r = true)) ∧
    normalizeDatePt "25 mar. 2025".data = some "2025-03-25".data ∧
    normalizeDatePt "17 de abril de 2025".data = some "2025-04-17".data := by
  refine ⟨fun s => ?_, by decide, by decide⟩
  unfold normalizeDatePt
  exact dateFromParts_shape _ _

/-- C6: the author formatter maps both the comma form and the natural-order
form of the same name to the identical surname-uppercased output. -/
theorem C6_author_equivalence :
    formatAuthorAbnt "Silva, João".data = "SILVA, João".data ∧
    formatAuthorAbnt "João Silva".data = "SILVA, João".data := by decide

/-- C7 (counterexample): the claim says the literal token others passes
through the author-list normalizer unchanged; in fact it is emitted with a
trailing period, so the output differs from the input token. -/
theorem C7_counterexample :
    normalizeAuthorList "others".data = "others.".data ∧
    normalizeAuthorList "others".data ≠ "others".data := by decide

/-- C7 (amended): every element of the and-separated author list whose
brace-and-space-stripped form is the literal token others is emitted as
others with a trailing period appended, not unchanged; in a full list the
element likewise surfaces with the period. -/
theorem C7_amended (p : Str)
    (h : pyStripSet "\x7b\x7d ".data (pyStrip p) = "others".data) :
    authorElem p = some "others.".data ∧
    normalizeAuthorList "Silva, João and others".data = "SILVA, João and others.".data := by
  constructor
  · unfold authorElem
    rw [h]
    decide
  · decide

/-- Witness for the amended C7 at a concrete element. -/
theorem C7_witness :
    authorElem " others ".data = some "others.".data ∧
    normalizeAuthorList "Silva, João and others".data = "SILVA, João and others.".data :=
  C7_amended " others ".data (by decide)

/-- C8 (counterexample): the claim says a record type absent from the
order mapping keeps its input field order unchanged; with two fields of
the same name the orderer instead drops the second, so the output differs
from the input. -/
theorem C8_counterexample :
    orderFields "weird".data [([], "a".data, "1".data), ([], "a".data, "2".data)] ≠
      [([], "a".data, "1".data), ([], "a".data, "2".data)] := by decide

/-- C1 (counterexample): the claim says the crossref field is absent after
normalization regardless of whether its value names a known key; for a
record whose crossref names a key not in the index, normalization returns
the record with the crossref field still present. -/
theorem C1_counterexample :
    normalizeFields "misc".data "k".data [("  ".data, "crossref".data, "nope".data)]
      [("p".data, ("book".data, [("  ".data, "year".data, "2000".data)], []))] =
      [("  ".data, "crossref".data, "nope".data)] := by decide

/-- C2 (counterexample): the claim says a second pipeline run on the
pipeline's own output reports zero modified and zero dropped records; for
a document with the url value x_.ab.cd the first run rewrites it to
.ab.cd and the second run rewrites that again to ab.cd, so the second run
reports a modified record. -/
theorem C2_counterexample :
    ¬ ((runPipeline (runPipeline "@misc\x7bk,\n  url = \x7bx_.ab.cd\x7d,\n\x7d\n".data).out).changed = 0 ∧
       (runPipeline (runPipeline "@misc\x7bk,\n  url = \x7bx_.ab.cd\x7d,\n\x7d\n".data).out).dropped = 0) := by
  decide

def fpAt (rs : List (Str × Str × List BibField)) (i : Nat) : Fp :=
  match rs.get? i with
  | some r => entryFingerprint r.1 r.2.1 r.2.2
  | none => ([], [], [])

theorem dedupFlagsAux_count (rs : List (Str × Str × List BibField)) (seen : List Fp) :
    (dedupFlagsAux rs seen).2 = (dedupFlagsAux rs seen).1.count false := by
  induction rs generalizing seen with
  | nil => rfl
  | cons r rest ih =>
    dsimp only [dedupFlagsAux]
    split
    · split
      · simp [List.count_cons, ih]
      · simp [List.count_cons, ih]
    · simp [List.count_cons, ih]

theorem dedupFlagsAux_flag (rs : List (Str × Str × List BibField)) (seen : List Fp)
    (i : Nat) (h : i < rs.length) :
    ((dedupFlagsAux rs seen).1.getD i false = true ↔
      (¬ anyFp (fpAt rs i) = true ∨
        (fpAt rs i ∉ seen ∧ ∀ j, j < i → fpAt rs j ≠ fpAt rs i))) := by
  induction rs generalizing seen i with
  | nil => simp at h
  | cons r rest ih =>
    have hfp0 : fpAt (r :: rest) 0 = entryFingerprint r.1 r.2.1 r.2.2 := rfl
    have hfpS : ∀ j, fpAt (r :: rest) (j + 1) = fpAt rest j := fun j => rfl
    dsimp only [dedupFlagsAux]
    by_cases ha : anyFp (entryFingerprint r.1 r.2.1 r.2.2) = true
    · by_cases hs : entryFingerprint r.1 r.2.1 r.2.2 ∈ seen
      · rw [if_pos ha, if_pos hs]
        cases i with
        | zero =>
          simp only [List.getD_cons_zero, hfp0]
          constructor
          · intro hfalse; cases hfalse
          · rintro (hna | ⟨hnots, _⟩)
            · exact absurd ha hna
            · exact absurd hs hnots
        | succ i =>
          simp only [List.getD_cons_succ, hfpS]
          rw [ih seen i (by simpa using h)]
          constructor
          · rintro (hna | ⟨hnots, hall⟩)
            · exact Or.inl hna
            · refine Or.inr ⟨hnots, fun j hj => ?_⟩
              cases j with
              | zero =>
                rw [hfp0]
                intro heq
                exact hnots (heq ▸ hs)
              | succ j => exact hall j (by omega)
          · rintro (hna | ⟨hnots, hall⟩)
            · exact Or.inl hna
            · exact Or.inr ⟨hnots, fun j hj => hall (j + 1) (by omega)⟩
      · rw [if_pos ha, if_neg hs]
        cases i with
        | zero =>
          simp only [List.getD_cons_zero, hfp0]
          constructor
          · intro _
            exact Or.inr ⟨hs, fun j hj => by omega⟩
          · intro _
            trivial
        | succ i =>
          simp only [List.getD_cons_succ, hfpS]
          rw [ih (entryFingerprint r.1 r.2.1 r.2.2 :: seen) i (by simpa using h)]
          constructor
          · rintro (hna | ⟨hnots, hall⟩)
            · exact Or.inl hna
            · refine Or.inr ⟨fun hmem => hnots (List.mem_cons_of_mem _ hmem), fun j hj => ?_⟩
              cases j with
              | zero =>
                rw [hfp0]
                intro heq
                exact hnots (heq ▸ List.mem_cons_self _ _)
              | succ j => exact hall j (by omega)
          · rintro (hna | ⟨hnots, hall⟩)
            · exact Or.inl hna
            · refine Or.inr ⟨?_, fun j hj => hall (j + 1) (by omega)⟩
              intro hmem
              rcases List.mem_cons.mp hmem with heq | hmem2
              · exact (hall 0 (by omega)) (by rw [hfp0, heq])
              · exact hnots hmem2
    · rw [if_neg ha]
      cases i with
      | zero =>
        simp only [List.getD_cons_zero, hfp0]
        constructor
        · intro _
          exact Or.inl ha
        · intro _
          trivial
      | succ i =>
        simp only [List.getD_cons_succ, hfpS]
        rw [ih seen i (by simpa using h)]
        constructor
        · rintro (hna | ⟨hnots, hall⟩)
          · exact Or.inl hna
          · by_cases hax : anyFp (fpAt rest i) = true
            · refine Or.inr ⟨hnots, fun j hj => ?_⟩
              cases j with
              | zero =>
                rw [hfp0]
                intro heq
                rw [heq] at ha
                exact ha hax
              | succ j => exact hall j (by omega)
            · exact Or.inl hax
        · rintro (hna | ⟨hnots, hall⟩)
          · exact Or.inl hna
          · exact Or.inr ⟨hnots, fun j hj => hall (j + 1) (by omega)⟩

def remAux (istyle : Str) : List BibField → List Str → List BibField
  | [], _ => []
  | f :: fs, used =>
    if nameOf f ∈ used then remAux istyle fs used
    else (istyle, nameOf f, valOf f) :: remAux istyle fs (nameOf f :: used)

def dedupStr : List Str → List Str → List Str
  | [], _ => []
  | x :: xs, seen => if x ∈ seen then dedupStr xs seen else x :: dedupStr xs (x :: seen)

theorem orderMap_nodup (t : Str) : (orderMapGet t).Nodup := by
  unfold orderMapGet
  split_ifs <;> decide

theorem remAux_congr (istyle : Str) (fs : List BibField) :
    ∀ u1 u2 : List Str, (∀ x, x ∈ u1 ↔ x ∈ u2) → remAux istyle fs u1 = remAux istyle fs u2 := by
  induction fs with
  | nil => intro u1 u2 _; rfl
  | cons f fs ih =>
    intro u1 u2 hequiv
    dsimp only [remAux]
    by_cases hm : nameOf f ∈ u1
    · rw [if_pos hm, if_pos ((hequiv _).mp hm), ih u1 u2 hequiv]
    · rw [if_neg hm, if_neg (fun hc => hm ((hequiv _).mpr hc))]
      rw [ih (nameOf f :: u1) (nameOf f :: u2) (fun x => by simp [hequiv x])]

theorem pick2_fold (istyle : Str) (fs : List BibField) :
    ∀ acc : List BibField × List Str,
      (fs.foldl (pick2 istyle) acc).1 = acc.1 ++ remAux istyle fs acc.2 ∧
      (∀ x, x ∈ (fs.foldl (pick2 istyle) acc).2 ↔ x ∈ acc.2 ∨ x ∈ fs.map nameOf) := by
  induction fs with
  | nil => intro acc; simp [remAux]
  | cons f fs ih =>
    intro acc
    dsimp only [List.foldl_cons, pick2, remAux]
    by_cases hm : nameOf f ∈ acc.2
    · rw [if_pos hm, if_pos hm]
      refine ⟨(ih acc).1, fun x => ?_⟩
      rw [(ih acc).2 x]
      simp only [List.map_cons, List.mem_cons]
      constructor
      · rintro (h1 | h2)
        · exact Or.inl h1
        · exact Or.inr (Or.inr h2)
      · rintro (h1 | h2 | h3)
        · exact Or.inl h1
        · exact Or.inl (h2 ▸ hm)
        · exact Or.inr h3
    · rw [if_neg hm, if_neg hm]
      refine ⟨?_, fun x => ?_⟩
      · rw [(ih _).1]
        simp
      · rw [(ih _).2 x]
        simp only [List.mem_cons, List.map_cons]
        tauto
  
theorem pick1_fold (fields : List BibField) (istyle : Str) :
    ∀ (ds : List Str) (acc : List BibField × List Str), ds.Nodup →
      (∀ nm ∈ ds, nm ∉ acc.2) →
      (ds.foldl (pick1 fields istyle) acc).1 =
        acc.1 ++ ds.filterMap (fun nm => (fields.find? (fun f => nameOf f = nm)).map
          (fun g => (istyle, nm, valOf g))) ∧
      (∀ x, x ∈ (ds.foldl (pick1 fields istyle) acc).2 ↔
        x ∈ acc.2 ∨ (x ∈ ds ∧ (fields.find? (fun f => nameOf f = x)).isSome)) := by
  intro ds
  induction ds with
  | nil => intro acc _ _; simp
  | cons nm ds ih =>
    intro acc hnd hpre
    have hnm : nm ∉ acc.2 := hpre nm (List.mem_cons_self _ _)
    dsimp only [List.foldl_cons, pick1]
    rw [if_neg hnm]
    cases hf : fields.find? (fun f => nameOf f = nm) with
    | none =>
      have hih := ih acc (List.Nodup.of_cons hnd) (fun x hx => hpre x (List.mem_cons_of_mem _ hx))
      refine ⟨?_, fun x => ?_⟩
      · rw [hih.1]
        simp [hf]
      · rw [hih.2 x]
        simp only [List.mem_cons]
        constructor
        · rintro (h1 | h2)
          · exact Or.inl h1
          · exact Or.inr ⟨Or.inr h2.1, h2.2⟩
        · rintro (h1 | ⟨(heq | hmem), hsome⟩)
          · exact Or.inl h1
          · rw [heq, hf] at hsome
            cases hsome
          · exact Or.inr ⟨hmem, hsome⟩
    | some g =>
      have hpre2 : ∀ x ∈ ds, x ∉ nm :: acc.2 := by
        intro x hx
        simp only [List.mem_cons]
        rintro (heq | hmem)
        · rw [heq] at hx
          exact (List.nodup_cons.mp hnd).1 hx
        · exact hpre x (List.mem_cons_of_mem _ hx) hmem
      have hih := ih ((acc.1 ++ [(istyle, nm, valOf g)], nm :: acc.2)) (List.Nodup.of_cons hnd) hpre2
      refine ⟨?_, fun x => ?_⟩
      · rw [hih.1]
        simp [hf]
      · rw [hih.2 x]
        simp only [List.mem_cons]
        constructor
        · rintro ((heq | h1) | h2)
          · exact Or.inr ⟨Or.inl heq, by rw [heq, hf]; rfl⟩
          · exact Or.inl h1
          · exact Or.inr ⟨Or.inr h2.1, h2.2⟩
        · rintro (h1 | ⟨(heq | hmem), hsome⟩)
          · exact Or.inl (Or.inr h1)
          · exact Or.inl (Or.inl heq)
          · exact Or.inr ⟨hmem, hsome⟩

theorem orderFields_spec (t : Str) (fs : List BibField) :
    orderFields t fs =
      (orderMapGet (pyLower t)).filterMap
        (fun nm => (fs.find? (fun f => nameOf f = nm)).map
          (fun g => (firstIndent fs, nm, valOf g))) ++
      remAux (firstIndent fs) fs
        ((orderMapGet (pyLower t)).filter
          (fun nm => (fs.find? (fun f => nameOf f = nm)).isSome)) := by
  unfold orderFields
  have h1 := pick1_fold fs (firstIndent fs) (orderMapGet (pyLower t)) ([], [])
    (orderMap_nodup _) (by simp)
  have h2 := pick2_fold (firstIndent fs) fs
    ((orderMapGet (pyLower t)).foldl (pick1 fs (firstIndent fs)) ([], []))
  rw [h2.1, h1.1]
  simp only [List.nil_append]
  congr 1
  apply remAux_congr
  intro x
  rw [h1.2 x]
  simp [List.mem_filter]

theorem findCons {α : Type} (p : α → Bool) (a : α) (l : List α) :
    (a :: l).find? p = if p a then some a else l.find? p := by
  cases hp : p a <;> simp [List.find?, hp]

theorem filterMap_pick_names (ds : List Str) (fs : List BibField) (istyle : Str) :
    (ds.filterMap (fun nm => (fs.find? (fun f => nameOf f = nm)).map
      (fun g => (istyle, nm, valOf g)))).map nameOf =
    ds.filter (fun nm => (fs.find? (fun f => nameOf f = nm)).isSome) := by
  induction ds with
  | nil => rfl
  | cons nm ds ih =>
    rw [List.filterMap_cons, List.filter_cons]
    cases hf : fs.find? (fun f => nameOf f = nm) with
    | none => simpa using ih
    | some g =>
      exact congrArg (List.cons nm) ih

theorem remAux_names (istyle : Str) :
    ∀ (fs : List BibField) (used : List Str),
      (remAux istyle fs used).map nameOf = dedupStr (fs.map nameOf) used := by
  intro fs
  induction fs with
  | nil => intro used; rfl
  | cons f fs ih =>
    intro used
    dsimp only [remAux, List.map_cons, dedupStr]
    by_cases hm : nameOf f ∈ used
    · rw [if_pos hm, if_pos hm, ih]
    · rw [if_neg hm, if_neg hm, List.map_cons, ih]
      rfl

theorem dedupStr_mem :
    ∀ (xs seen : List Str) (x : Str), x ∈ dedupStr xs seen ↔ x ∈ xs ∧ x ∉ seen := by
  intro xs
  induction xs with
  | nil => intro seen x; simp [dedupStr]
  | cons y ys ih =>
    intro seen x
    dsimp only [dedupStr]
    by_cases hm : y ∈ seen
    · rw [if_pos hm, ih]
      constructor
      · rintro ⟨h1, h2⟩
        exact ⟨List.mem_cons_of_mem _ h1, h2⟩
      · rintro ⟨h1, h2⟩
        rcases List.mem_cons.mp h1 with heq | h1b
        · rw [heq] at h2
          exact absurd hm h2
        · exact ⟨h1b, h2⟩
    · rw [if_neg hm]
      constructor
      · intro hmem
        rcases List.mem_cons.mp hmem with heq | hmem2
        · rw [heq]
          exact ⟨List.mem_cons_self _ _, hm⟩
        · obtain ⟨h1, h2⟩ := (ih _ _).mp hmem2
          exact ⟨List.mem_cons_of_mem _ h1, fun hc => h2 (List.mem_cons_of_mem _ hc)⟩
      · rintro ⟨h1, h2⟩
        rcases List.mem_cons.mp h1 with heq | h1b
        · rw [heq]
          exact List.mem_cons_self _ _
        · by_cases hxy : x = y
          · rw [hxy]
            exact List.mem_cons_self _ _
          · refine List.mem_cons_of_mem _ ((ih _ _).mpr ⟨h1b, ?_⟩)
            intro hc
            rcases List.mem_cons.mp hc with heq2 | hc2
            · exact hxy heq2
            · exact h2 hc2

theorem dedupStr_nodup : ∀ (xs seen : List Str), (dedupStr xs seen).Nodup := by
  intro xs
  induction xs with
  | nil => intro seen; exact List.nodup_nil
  | cons y ys ih =>
    intro seen
    dsimp only [dedupStr]
    by_cases hm : y ∈ seen
    · rw [if_pos hm]; exact ih seen
    · rw [if_neg hm]
      refine List.nodup_cons.mpr ⟨?_, ih _⟩
      intro hc
      exact ((dedupStr_mem _ _ _).mp hc).2 (List.mem_cons_self _ _)

theorem remAux_first (istyle : Str) :
    ∀ (fs : List BibField) (used : List Str) (f2 : BibField),
      f2 ∈ remAux istyle fs used →
      nameOf f2 ∉ used ∧ ∃ g, fs.find? (fun x => nameOf x = nameOf f2) = some g ∧
        f2 = (istyle, nameOf g, valOf g) := by
  intro fs
  induction fs with
  | nil => intro used f2 h; cases h
  | cons f fs ih =>
    intro used f2 h
    dsimp only [remAux] at h
    by_cases hm : nameOf f ∈ used
    · rw [if_pos hm] at h
      obtain ⟨hnots, g, hg, heq⟩ := ih used f2 h
      have hne : (decide (nameOf f = nameOf f2)) = false := by
        simp only [decide_eq_false_iff_not]
        intro hc
        rw [hc] at hm
        exact hnots hm
      refine ⟨hnots, g, ?_, heq⟩
      rw [findCons, hne, if_neg (by simp), hg]
    · rw [if_neg hm] at h
      rcases List.mem_cons.mp h with heq | hmem
      · have hn2 : nameOf f2 = nameOf f := by rw [heq]; rfl
        refine ⟨by rw [hn2]; exact hm, f, ?_, by rw [heq]⟩
        rw [findCons, if_pos (by simp [hn2])]
      · obtain ⟨hnots, g, hg, heqq⟩ := ih (nameOf f :: used) f2 hmem
        have hne : (decide (nameOf f = nameOf f2)) = false := by
          simp only [decide_eq_false_iff_not]
          intro hc
          rw [hc] at hnots
          exact hnots (List.mem_cons_self _ _)
        refine ⟨fun hc => hnots (List.mem_cons_of_mem _ hc), g, ?_, heqq⟩
        rw [findCons, hne, if_neg (by simp), hg]

/-- C10: the output of the field orderer contains each field name at most
once; every output field's value is the value of the first input field of
that name (later occurrences are silently discarded), and the output names
are exactly the input names. -/
theorem C10_order_dedup :
    ∀ (t : Str) (fs : List BibField),
      ((orderFields t fs).map nameOf).Nodup ∧
      (∀ f2 ∈ orderFields t fs,
        ∃ g, fs.find? (fun x => nameOf x = nameOf f2) = some g ∧ valOf f2 = valOf g) ∧
      (∀ nm, nm ∈ (orderFields t fs).map nameOf ↔ nm ∈ fs.map nameOf) := by
  intro t fs
  rw [orderFields_spec t fs]
  set ds := orderMapGet (pyLower t) with hds
  set istyle := firstIndent fs with hist
  set used := ds.filter (fun nm => (fs.find? (fun f => nameOf f = nm)).isSome) with hused
  have hnames : ((ds.filterMap (fun nm => (fs.find? (fun f => nameOf f = nm)).map
      (fun g => (istyle, nm, valOf g))) ++ remAux istyle fs used).map nameOf) =
      used ++ dedupStr (fs.map nameOf) used := by
    rw [List.map_append, filterMap_pick_names, remAux_names]
  refine ⟨?_, ?_, ?_⟩
  · rw [hnames]
    rw [List.nodup_append]
    refine ⟨List.Nodup.filter _ (orderMap_nodup _), dedupStr_nodup _ _, ?_⟩
    intro x hx hx2
    exact ((dedupStr_mem _ _ _).mp hx2).2 hx
  · intro f2 hf2
    rcases List.mem_append.mp hf2 with hA | hB
    · obtain ⟨nm, hnm, hF⟩ := List.mem_filterMap.mp hA
      rw [Option.map_eq_some'] at hF
      obtain ⟨g, hg, heq⟩ := hF
      have hname : nameOf f2 = nm := by rw [← heq]; rfl
      refine ⟨g, ?_, by rw [← heq]; rfl⟩
      rw [hname]
      exact hg
    · obtain ⟨_, g, hg, heq⟩ := remAux_first istyle fs used f2 hB
      refine ⟨g, hg, by rw [heq]; rfl⟩
  · intro nm
    rw [hnames, List.mem_append, dedupStr_mem]
    constructor
    · rintro (h1 | ⟨h2, _⟩)
      · have hsome := (List.mem_filter.mp h1).2
        obtain ⟨g, hg⟩ := Option.isSome_iff_exists.mp hsome
        have := List.find?_some hg
        have hgmem := List.mem_of_find?_eq_some hg
        refine List.mem_map.mpr ⟨g, hgmem, by simpa using this⟩
      · exact h2
    · intro h1
      by_cases hu : nm ∈ used
      · exact Or.inl hu
      · exact Or.inr ⟨h1, hu⟩

/-- C8 (amended): the field orderer emits the fields whose names appear in
the canonical priority list of the type first, in list order, at most one
field per name (the first input field of that name supplies the value);
the remaining fields follow as the first occurrences of the names not in
the list, in their input relative order, with later fields of a repeated
name discarded; every emitted field carries the first input field's
indentation; for a record type absent from the mapping the output is the
input deduplicated by name with unified indentation, not the input
unchanged. -/
theorem C8_amended :
    ∀ (t : Str) (fs : List BibField),
      orderFields t fs =
        (orderMapGet (pyLower t)).filterMap
          (fun nm => (fs.find? (fun f => nameOf f = nm)).map
            (fun g => (firstIndent fs, nm, valOf g))) ++
        remAux (firstIndent fs) fs
          ((orderMapGet (pyLower t)).filter
            (fun nm => (fs.find? (fun f => nameOf f = nm)).isSome)) ∧
      (orderMapGet (pyLower t) = [] → orderFields t fs = remAux (firstIndent fs) fs []) := by
  intro t fs
  refine ⟨orderFields_spec t fs, fun h => ?_⟩
  rw [orderFields_spec t fs, h]
  rfl

/-- C3: in document order, a normalized record is kept by the deduplicator
exactly when its fingerprint is all-empty or no earlier record has an equal
fingerprint (so the first record of each nonempty fingerprint survives and
all-empty-fingerprint records always survive), and the dropped counter
counts exactly the discarded records. -/
theorem C3_dedup (rs : List (Str × Str × List BibField)) (i : Nat) (h : i < rs.length) :
    ((dedupFlags rs).1.getD i false = true ↔
      (¬ anyFp (fpAt rs i) = true ∨ ∀ j, j < i → fpAt rs j ≠ fpAt rs i)) ∧
    (dedupFlags rs).2 = (dedupFlags rs).1.count false := by
  constructor
  · simpa [dedupFlags] using dedupFlagsAux_flag rs [] i h
  · simpa [dedupFlags] using dedupFlagsAux_count rs []

def dedupDemoRecs : List (Str × Str × List BibField) :=
  [("article".data, "k1".data, [([], "doi".data, "10.1/x".data)]),
   ("article".data, "k2".data, [([], "doi".data, "10.1/x".data)]),
   ("misc".data, "k3".data, []),
   ("misc".data, "k4".data, [])]

/-- Witness for C3 at a concrete record list with a duplicated doi and two
all-empty fingerprints. -/
theorem C3_witness :
    (((dedupFlags dedupDemoRecs).1.getD 1 false = true ↔
      (¬ anyFp (fpAt dedupDemoRecs 1) = true ∨
        ∀ j, j < 1 → fpAt dedupDemoRecs j ≠ fpAt dedupDemoRecs 1)) ∧
     (dedupFlags dedupDemoRecs).2 = (dedupFlags dedupDemoRecs).1.count false) :=
  C3_dedup dedupDemoRecs 1 (by decide)

theorem joinNL_cons_ne (x : Str) (xs : List Str) (h : xs ≠ []) :
    joinNL (x :: xs) = x ++ '\n' :: joinNL xs := by
  cases xs with
  | nil => exact absurd rfl h
  | cons y ys =>
    show x ++ ['\n'] ++ joinWith ['\n'] (y :: ys) = x ++ '\n' :: joinWith ['\n'] (y :: ys)
    rw [List.append_assoc]
    rfl

/-- C9: for every successfully parsed record, the serialized output built
after normalization and ordering starts with a header line containing
exactly the type and key produced by the parser: no later pipeline stage
changes them. -/
theorem C9_header_immutable :
    ∀ (txt t k : Str) (fs : List BibField) (u : List Str) (m : EMap) (istyle : Str),
      parseEntry txt = some (t, k, fs, u) →
      ∃ rest,
        buildEntry t k (orderFields t (normalizeFields t k fs m)) u istyle =
          ('@' :: (t ++ '\x7b' :: (k ++ [',']))) ++ '\n' :: rest := by
  intro txt t k fs u m istyle _
  refine ⟨joinNL ((orderFields t (normalizeFields t k fs m)).map (fun f =>
    idtOf f ++ nameOf f ++ " = \x7b".data ++ valOf f ++ "\x7d,".data) ++ u ++ ["\x7d".data]), ?_⟩
  unfold buildEntry
  apply joinNL_cons_ne
  simp

/-- Witness for C9 at a concrete parsed entry. -/
theorem C9_witness :
    ∃ rest,
      buildEntry "misc".data "k".data
        (orderFields "misc".data (normalizeFields "misc".data "k".data [] [])) [] [] =
        ('@' :: ("misc".data ++ '\x7b' :: ("k".data ++ [',']))) ++ '\n' :: rest :=
  C9_header_immutable "@misc\x7bk,\n\x7d".data "misc".data "k".data [] [] [] [] (by rfl)

/-- Witness for C8 (amended) at a concrete unknown-type record. -/
theorem C8_witness :
    orderFields "weird".data [([], "a".data, "1".data)] =
      remAux [] [([], "a".data, "1".data)] [] :=
  (C8_amended "weird".data [([], "a".data, "1".data)]).2 (by decide)

def orderDemoFields : List BibField :=
  [("  ".data, "url".data, "u".data), ("  ".data, "url".data, "v".data),
   ("  ".data, "zz".data, "z".data)]

/-- Witness for C10 at a concrete field list with a repeated name. -/
theorem C10_witness :
    ((orderFields "misc".data orderDemoFields).map nameOf).Nodup ∧
    (∀ f2 ∈ orderFields "misc".data orderDemoFields,
      ∃ g, orderDemoFields.find? (fun x => nameOf x = nameOf f2) = some g ∧
        valOf f2 = valOf g) ∧
    (∀ nm, nm ∈ (orderFields "misc".data orderDemoFields).map nameOf ↔
      nm ∈ orderDemoFields.map nameOf) :=
  C10_order_dedup "misc".data orderDemoFields

theorem transformValue_id (lname v : Str) (h1 : lname ≠ "url".data)
    (h2 : lname ≠ "doi".data) (h3 : lname ≠ "author".data) :
    transformValue lname v = v := by
  unfold transformValue
  dsimp only
  rw [if_neg h1, if_neg h2, if_neg h3]

theorem journalExtra_nil (existing : List Str) (idt lname v : Str)
    (h : lname ∈ journalLikeNames → hasDispOrHttp v = false) :
    journalExtra existing idt lname v = ([], v) := by
  unfold journalExtra
  rw [if_neg]
  rintro ⟨hmem, hdisp⟩
  rw [h hmem] at hdisp
  cases hdisp

theorem journalExtra_names (existing : List Str) (idt lname v : Str) :
    ∀ g ∈ (journalExtra existing idt lname v).1,
      nameOf g = "url".data ∨ nameOf g = "urldate".data := by
  unfold journalExtra
  split
  · dsimp only
    intro g hg
    rcases List.mem_append.mp hg with h1 | h2
    · split at h1
      · rcases List.mem_singleton.mp h1 with heq
        rw [heq]
        exact Or.inl rfl
      · cases h1
    · split at h2
      · rcases List.mem_singleton.mp h2 with heq
        rw [heq]
        exact Or.inr rfl
      · cases h2
  · intro g hg
    cases hg

theorem fieldEmit_names (key lname idt v : Str) :
    ∀ g ∈ fieldEmit key lname idt v, ∃ w, g = (idt, lname, w) := by
  unfold fieldEmit
  split
  · intro g hg; cases hg
  · split
    · intro g hg; cases hg
    · intro g hg
      rcases List.mem_singleton.mp hg with heq
      exact ⟨_, heq⟩

theorem processField_nf (key : Str) (st : NLoop) (f : BibField) :
    ∃ l, (processField key st f).nf = st.nf ++ l ∧
      ∀ g ∈ l, nameOf g = pyLower (nameOf f) ∨ nameOf g = "url".data ∨
        nameOf g = "urldate".data := by
  unfold processField
  dsimp only
  split
  · exact ⟨[], by simp, by simp⟩
  · refine ⟨_, by rw [List.append_assoc], ?_⟩
    intro g hg
    rcases List.mem_append.mp hg with h1 | h2
    · rcases journalExtra_names _ _ _ _ g h1 with h | h
      · exact Or.inr (Or.inl h)
      · exact Or.inr (Or.inr h)
    · obtain ⟨w, heq⟩ := fieldEmit_names _ _ _ _ g h2
      rw [heq]
      exact Or.inl rfl

theorem processField_mono (key : Str) (st : NLoop) (f g2 : BibField)
    (h : g2 ∈ st.nf) : g2 ∈ (processField key st f).nf := by
  obtain ⟨l, hl, _⟩ := processField_nf key st f
  rw [hl]
  exact List.mem_append_left _ h

theorem processField_note_other (key : Str) (st : NLoop) (f : BibField)
    (h : pyLower (nameOf f) ≠ "note".data) :
    (processField key st f).note = st.note := by
  unfold processField
  dsimp only
  rw [if_neg h]
  split <;> rfl

theorem processField_trivial_note (key : Str) (st : NLoop) (f : BibField)
    (h : pyLower (nameOf f) = "note".data)
    (ht : isTrivialNote (pyStrip (valOf f)) = true) :
    processField key st f = { nf := st.nf, note := some (pyStrip (valOf f)) } := by
  have hv : transformValue (pyLower (nameOf f)) (pyStrip (valOf f)) = pyStrip (valOf f) := by
    apply transformValue_id <;> rw [h] <;> decide
  unfold processField
  dsimp only
  rw [hv, if_pos ⟨h, ht⟩, if_pos h]

theorem foldl_mono (key : Str) :
    ∀ (fs : List BibField) (st : NLoop) (g2 : BibField),
      g2 ∈ st.nf → g2 ∈ (fs.foldl (processField key) st).nf := by
  intro fs
  induction fs with
  | nil => intro st g2 h; exact h
  | cons f fs ih =>
    intro st g2 h
    exact ih _ _ (processField_mono key st f g2 h)

theorem foldl_names (key : Str) :
    ∀ (fs : List BibField) (st : NLoop) (f2 : BibField),
      f2 ∈ (fs.foldl (processField key) st).nf →
      f2 ∈ st.nf ∨ (∃ g ∈ fs, nameOf f2 = pyLower (nameOf g)) ∨
        nameOf f2 = "url".data ∨ nameOf f2 = "urldate".data := by
  intro fs
  induction fs with
  | nil => intro st f2 h; exact Or.inl h
  | cons f fs ih =>
    intro st f2 h
    rcases ih _ f2 h with h1 | h2 | h3 | h4
    · obtain ⟨l, hl, hnames⟩ := processField_nf key st f
      rw [hl] at h1
      rcases List.mem_append.mp h1 with ha | hb
      · exact Or.inl ha
      · rcases hnames f2 hb with hn | hn | hn
        · exact Or.inr (Or.inl ⟨f, List.mem_cons_self _ _, hn⟩)
        · exact Or.inr (Or.inr (Or.inl hn))
        · exact Or.inr (Or.inr (Or.inr hn))
    · obtain ⟨g, hg, hn⟩ := h2
      exact Or.inr (Or.inl ⟨g, List.mem_cons_of_mem _ hg, hn⟩)
    · exact Or.inr (Or.inr (Or.inl h3))
    · exact Or.inr (Or.inr (Or.inr h4))

theorem bardinPost_super (key : Str) (nf : List BibField) (f2 : BibField)
    (h : f2 ∈ nf) : f2 ∈ bardinPost key nf := by
  unfold bardinPost
  split
  · dsimp only
    split
    · split
      · exact List.mem_append_left _ (List.mem_append_left _ h)
      · exact List.mem_append_left _ h
    · split
      · exact List.mem_append_left _ h
      · exact h
  · exact h

theorem bardinPost_names (key : Str) (nf : List BibField) (f2 : BibField)
    (h : f2 ∈ bardinPost key nf) :
    f2 ∈ nf ∨ nameOf f2 = "publisher".data ∨ nameOf f2 = "address".data := by
  unfold bardinPost at h
  split at h
  · dsimp only at h
    split at h
    · split at h
      · rcases List.mem_append.mp h with h1 | h2
        · rcases List.mem_append.mp h1 with h3 | h4
          · exact Or.inl h3
          · rw [List.mem_singleton.mp h4]
            exact Or.inr (Or.inl rfl)
        · rw [List.mem_singleton.mp h2]
          exact Or.inr (Or.inr rfl)
      · rcases List.mem_append.mp h with h1 | h2
        · exact Or.inl h1
        · rw [List.mem_singleton.mp h2]
          exact Or.inr (Or.inr rfl)
    · split at h
      · rcases List.mem_append.mp h with h1 | h2
        · exact Or.inl h1
        · rw [List.mem_singleton.mp h2]
          exact Or.inr (Or.inl rfl)
      · exact Or.inl h
  · exact Or.inl h

theorem notePost_super (note : Option Str) (nf : List BibField) (f2 : BibField)
    (h : f2 ∈ nf) : f2 ∈ notePost note nf := by
  unfold notePost
  split
  · dsimp only
    split
    · split
      · exact List.mem_append_left _ (List.mem_append_left _ h)
      · exact List.mem_append_left _ h
    · split
      · exact List.mem_append_left _ h
      · exact h
  · exact h

theorem notePost_names (note : Option Str) (nf : List BibField) (f2 : BibField)
    (h : f2 ∈ notePost note nf) :
    f2 ∈ nf ∨ nameOf f2 = "url".data ∨ nameOf f2 = "urldate".data := by
  unfold notePost at h
  split at h
  · dsimp only at h
    split at h
    · split at h
      · rcases List.mem_append.mp h with h1 | h2
        · rcases List.mem_append.mp h1 with h3 | h4
          · exact Or.inl h3
          · rw [List.mem_singleton.mp h4]
            exact Or.inr (Or.inl rfl)
        · rw [List.mem_singleton.mp h2]
          exact Or.inr (Or.inr rfl)
      · rcases List.mem_append.mp h with h1 | h2
        · exact Or.inl h1
        · rw [List.mem_singleton.mp h2]
          exact Or.inr (Or.inl rfl)
    · split at h
      · rcases List.mem_append.mp h with h1 | h2
        · exact Or.inl h1
        · rw [List.mem_singleton.mp h2]
          exact Or.inr (Or.inr rfl)
      · exact Or.inl h
  · exact Or.inl h

theorem miscAuthor_names (key : Str) (names : List Str) (nf : List BibField) (f2 : BibField)
    (h : f2 ∈ miscAuthor key names nf) : f2 ∈ nf ∨ nameOf f2 = "author".data := by
  unfold miscAuthor at h
  split at h
  · split at h
    · rcases List.mem_append.mp h with h1 | h2
      · exact Or.inl h1
      · rw [List.mem_singleton.mp h2]
        exact Or.inr rfl
    · exact Or.inl h
  · exact Or.inl h

theorem miscAuthor_super (key : Str) (names : List Str) (nf : List BibField) (f2 : BibField)
    (h : f2 ∈ nf) : f2 ∈ miscAuthor key names nf := by
  unfold miscAuthor
  split
  · split
    · exact List.mem_append_left _ h
    · exact h
  · exact h

theorem miscTitle_names (note : Option Str) (names : List Str) (nf : List BibField)
    (f2 : BibField) (h : f2 ∈ miscTitle note names nf) :
    f2 ∈ nf ∨ nameOf f2 = "title".data := by
  unfold miscTitle at h
  split at h
  · dsimp only at h
    split at h
    · split at h
      · rcases List.mem_append.mp h with h1 | h2
        · exact Or.inl h1
        · rw [List.mem_singleton.mp h2]
          exact Or.inr rfl
      · exact Or.inl h
    · exact Or.inl h
  · exact Or.inl h

theorem miscTitle_super (note : Option Str) (names : List Str) (nf : List BibField)
    (f2 : BibField) (h : f2 ∈ nf) : f2 ∈ miscTitle note names nf := by
  unfold miscTitle
  split
  · dsimp only
    split
    · split
      · exact List.mem_append_left _ h
      · exact h
    · exact h
  · exact h

theorem miscYear_names (nf : List BibField) (f2 : BibField) (h : f2 ∈ miscYear nf) :
    f2 ∈ nf ∨ nameOf f2 = "year".data := by
  unfold miscYear at h
  split at h
  · split at h
    · split at h
      · rcases List.mem_append.mp h with h1 | h2
        · exact Or.inl h1
        · rw [List.mem_singleton.mp h2]
          exact Or.inr rfl
      · exact Or.inl h
    · exact Or.inl h
  · exact Or.inl h

theorem miscYear_super (nf : List BibField) (f2 : BibField) (h : f2 ∈ nf) :
    f2 ∈ miscYear nf := by
  unfold miscYear
  split
  · split
    · split
      · exact List.mem_append_left _ h
      · exact h
    · exact h
  · exact h

theorem miscHow_names (nf : List BibField) (f2 : BibField) (h : f2 ∈ miscHow nf) :
    f2 ∈ nf ∨ nameOf f2 = "howpublished".data := by
  unfold miscHow at h
  split at h
  · rcases List.mem_append.mp h with h1 | h2
    · exact Or.inl h1
    · rw [List.mem_singleton.mp h2]
      exact Or.inr rfl
  · exact Or.inl h

theorem miscHow_super (nf : List BibField) (f2 : BibField) (h : f2 ∈ nf) :
    f2 ∈ miscHow nf := by
  unfold miscHow
  split
  · exact List.mem_append_left _ h
  · exact h

theorem miscPost_names (entryType key : Str) (note : Option Str) (nf : List BibField)
    (f2 : BibField) (h : f2 ∈ miscPost entryType key note nf) :
    f2 ∈ nf ∨ nameOf f2 = "author".data ∨ nameOf f2 = "title".data ∨
      nameOf f2 = "year".data ∨ nameOf f2 = "howpublished".data := by
  unfold miscPost at h
  split at h
  · rcases miscHow_names _ f2 h with h1 | h1
    · rcases miscYear_names _ f2 h1 with h2 | h2
      · rcases miscTitle_names _ _ _ f2 h2 with h3 | h3
        · rcases miscAuthor_names _ _ _ f2 h3 with h4 | h4
          · exact Or.inl h4
          · exact Or.inr (Or.inl h4)
        · exact Or.inr (Or.inr (Or.inl h3))
      · exact Or.inr (Or.inr (Or.inr (Or.inl h2)))
    · exact Or.inr (Or.inr (Or.inr (Or.inr h1)))
  · exact Or.inl h

theorem miscPost_super (entryType key : Str) (note : Option Str) (nf : List BibField)
    (f2 : BibField) (h : f2 ∈ nf) : f2 ∈ miscPost entryType key note nf := by
  unfold miscPost
  split
  · exact miscHow_super _ _ (miscYear_super _ _ (miscTitle_super _ _ _ _
      (miscAuthor_super _ _ _ _ h)))
  · exact h

theorem langPost_names (nf : List BibField) (f2 : BibField) (h : f2 ∈ langPost nf) :
    f2 ∈ nf ∨ nameOf f2 = "language".data := by
  unfold langPost at h
  split at h
  · split at h
    · rcases List.mem_append.mp h with h1 | h2
      · exact Or.inl h1
      · rw [List.mem_singleton.mp h2]
        exact Or.inr rfl
    · exact Or.inl h
  · exact Or.inl h

theorem langPost_super (nf : List BibField) (f2 : BibField) (h : f2 ∈ nf) :
    f2 ∈ langPost nf := by
  unfold langPost
  split
  · split
    · exact List.mem_append_left _ h
    · exact h
  · exact h

theorem normalizeCore_no_crossref (t k : Str) (merged : List BibField)
    (h : ∀ g ∈ merged, pyLower (nameOf g) ≠ "crossref".data) :
    ∀ f2 ∈ normalizeCore t k merged, nameOf f2 ≠ "crossref".data := by
  intro f2 hf2
  unfold normalizeCore at hf2
  rcases langPost_names _ f2 hf2 with h1 | h1
  · rcases miscPost_names _ _ _ _ f2 h1 with h2 | h2 | h2 | h2 | h2
    · rcases notePost_names _ _ f2 h2 with h3 | h3 | h3
      · rcases bardinPost_names _ _ f2 h3 with h4 | h4 | h4
        · rcases foldl_names k merged _ f2 h4 with h5 | ⟨g, hg, h5⟩ | h5 | h5
          · cases h5
          · rw [h5]
            exact h g hg
          · rw [h5]; decide
          · rw [h5]; decide
        · rw [h4]; decide
        · rw [h4]; decide
      · rw [h3]; decide
      · rw [h3]; decide
    · rw [h2]; decide
    · rw [h2]; decide
    · rw [h2]; decide
    · rw [h2]; decide
  · rw [h1]; decide

theorem fieldEmit_crossref (key idt v : Str) :
    fieldEmit key "crossref".data idt v = [(idt, "crossref".data, v)] := by
  unfold fieldEmit
  dsimp only
  rw [if_neg (show ¬("crossref".data = "key".data) by decide)]
  rw [if_neg (show ¬(pyLower key = "bardin2016".data ∧ "crossref".data = "edition".data ∧
    v = "70".data) from fun hc => absurd hc.2.1 (by decide))]
  rw [if_neg (show ¬(pyLower key = "bardin2016".data ∧ "crossref".data = "publisher".data ∧
    (pyStripSet "\x7b\x7d ".data v = "São Paulo".data ∨
     pyStripSet "\x7b\x7d ".data v = "Sao Paulo".data)) from fun hc => absurd hc.2.1 (by decide))]
  rw [if_neg (show ¬(pyLower key = "bardin2016".data ∧ "crossref".data = "address".data ∧
    pyStrip v = []) from fun hc => absurd hc.2.1 (by decide))]

theorem foldl_emits (key : Str) :
    ∀ (fs : List BibField) (st : NLoop) (f : BibField), f ∈ fs →
      pyLower (nameOf f) = "crossref".data →
      (idtOf f, "crossref".data, pyStrip (valOf f)) ∈ (fs.foldl (processField key) st).nf := by
  intro fs
  induction fs with
  | nil => intro st f h; cases h
  | cons f0 fs ih =>
    intro st f hmem hcross
    rcases List.mem_cons.mp hmem with heq | htl
    · subst heq
      rw [List.foldl_cons]
      apply foldl_mono
      have hv : transformValue (pyLower (nameOf f)) (pyStrip (valOf f)) = pyStrip (valOf f) := by
        apply transformValue_id <;> rw [hcross] <;> decide
      have hje : journalExtra (st.nf.map nameOf) (idtOf f) (pyLower (nameOf f))
          (pyStrip (valOf f)) = ([], pyStrip (valOf f)) := by
        apply journalExtra_nil
        intro hmem2
        rw [hcross] at hmem2
        exact absurd hmem2 (by decide)
      have hemit : fieldEmit key (pyLower (nameOf f)) (idtOf f) (pyStrip (valOf f)) =
          [(idtOf f, "crossref".data, pyStrip (valOf f))] := by
        rw [hcross]
        exact fieldEmit_crossref key (idtOf f) (pyStrip (valOf f))
      unfold processField
      dsimp only
      rw [if_neg (by rintro ⟨he, _⟩; rw [hcross] at he; exact absurd he (by decide))]
      dsimp only
      rw [hv, hje]
      dsimp only
      rw [hemit]
      simp
    · exact ih _ f htl hcross

/-- C1 (amended): when the crossref value names a key present in the
index, normalization removes every crossref field; when the crossref does
not resolve (unknown key, empty index or empty value), the result is as if
there were no index at all — no fields are inherited — and every crossref
field of the record survives normalization with lowercased name and
trimmed value, contrary to the claim that it is always dropped. -/
theorem C1_amended :
    ∀ (t k : Str) (fields : List BibField) (m : EMap),
      (∀ ck parent, findCrossrefKey fields = some ck → ck ≠ [] → ¬ m.isEmpty = true →
        emLookup m ck = some parent →
        ∀ f2 ∈ normalizeFields t k fields m, nameOf f2 ≠ "crossref".data) ∧
      ((∀ ck, findCrossrefKey fields = some ck → emLookup m ck = none) →
        normalizeFields t k fields m = normalizeFields t k fields [] ∧
        (∀ i n v, (i, n, v) ∈ fields → pyLower n = "crossref".data →
          (i, "crossref".data, pyStrip v) ∈ normalizeFields t k fields m)) := by
  intro t k fields m
  constructor
  · intro ck parent hck hckne hmne hlook f2 hf2
    unfold normalizeFields at hf2
    rw [hck] at hf2
    dsimp only at hf2
    rw [if_pos ⟨hckne, hmne, by rw [hlook]; rfl⟩] at hf2
    apply normalizeCore_no_crossref t k _ _ f2 hf2
    intro g hg
    have h1 := List.of_mem_filter hg
    exact of_decide_eq_true h1
  · intro hunres
    have hsame : normalizeFields t k fields m = normalizeCore t k fields := by
      unfold normalizeFields
      cases hck : findCrossrefKey fields with
      | none => rfl
      | some ck =>
        dsimp only
        rw [if_neg]
        rintro ⟨_, _, hsome⟩
        rw [hunres ck hck] at hsome
        cases hsome
    have hsame0 : normalizeFields t k fields [] = normalizeCore t k fields := by
      unfold normalizeFields
      cases hck : findCrossrefKey fields with
      | none => rfl
      | some ck =>
        dsimp only
        rw [if_neg]
        rintro ⟨_, hne, _⟩
        exact hne rfl
    refine ⟨by rw [hsame, hsame0], ?_⟩
    intro i n v hmem hlow
    rw [hsame]
    unfold normalizeCore
    apply langPost_super
    apply miscPost_super
    apply notePost_super
    apply bardinPost_super
    have := foldl_emits k fields { nf := [], note := none } (i, n, v) hmem hlow
    exact this

/-- Witness for the amended C1: the resolving direction at a record whose
crossref names a key present in the index. -/
theorem C1_witness :
    ∀ f2 ∈ normalizeFields "inproceedings".data "c".data
        [("  ".data, "crossref".data, "p".data)]
        [("p".data, ("book".data, [(" ".data, "year".data, "2000".data)], []))],
      nameOf f2 ≠ "crossref".data :=
  (C1_amended "inproceedings".data "c".data
      [("  ".data, "crossref".data, "p".data)]
      [("p".data, ("book".data, [(" ".data, "year".data, "2000".data)], []))]).1
    "p".data ("book".data, [(" ".data, "year".data, "2000".data)], [])
    (by rfl) (by decide) (by decide) (by rfl)

theorem journalLike_not_special :
    ∀ x ∈ journalLikeNames, x ≠ "url".data ∧ x ≠ "doi".data ∧ x ≠ "author".data := by
  decide

theorem processField_clean (key : Str) (st : NLoop) (g : BibField)
    (h1 : pyLower (nameOf g) ≠ "note".data)
    (h2 : pyLower (nameOf g) ≠ "url".data)
    (h3 : pyLower (nameOf g) ≠ "urldate".data)
    (h4 : pyLower (nameOf g) ∈ journalLikeNames →
      hasDispOrHttp (pyStrip (valOf g)) = false) :
    (processField key st g).note = st.note ∧
    ∀ f2 ∈ (processField key st g).nf, f2 ∈ st.nf ∨
      (nameOf f2 ≠ "note".data ∧ nameOf f2 ≠ "url".data ∧ nameOf f2 ≠ "urldate".data) := by
  have hje : journalExtra (st.nf.map nameOf) (idtOf g) (pyLower (nameOf g))
      (transformValue (pyLower (nameOf g)) (pyStrip (valOf g))) =
      ([], transformValue (pyLower (nameOf g)) (pyStrip (valOf g))) := by
    apply journalExtra_nil
    intro hmem
    have hid : transformValue (pyLower (nameOf g)) (pyStrip (valOf g)) = pyStrip (valOf g) := by
      have hs := journalLike_not_special _ hmem
      exact transformValue_id _ _ hs.1 hs.2.1 hs.2.2
    rw [hid]
    exact h4 hmem
  refine ⟨processField_note_other key st g h1, ?_⟩
  intro f2 hf2
  unfold processField at hf2
  dsimp only at hf2
  rw [if_neg (fun hc => h1 hc.1)] at hf2
  dsimp only at hf2
  rw [hje] at hf2
  dsimp only at hf2
  rw [List.append_nil] at hf2
  rcases List.mem_append.mp hf2 with ha | hb
  · exact Or.inl ha
  · obtain ⟨w, heq⟩ := fieldEmit_names _ _ _ _ f2 hb
    rw [heq]
    exact Or.inr ⟨h1, h2, h3⟩

theorem foldl_clean (key : Str) :
    ∀ (fs : List BibField) (st : NLoop),
      (∀ g ∈ fs, pyLower (nameOf g) ≠ "note".data ∧ pyLower (nameOf g) ≠ "url".data ∧
        pyLower (nameOf g) ≠ "urldate".data ∧
        (pyLower (nameOf g) ∈ journalLikeNames →
          hasDispOrHttp (pyStrip (valOf g)) = false)) →
      (fs.foldl (processField key) st).note = st.note ∧
      (∀ f2 ∈ (fs.foldl (processField key) st).nf, f2 ∈ st.nf ∨
        (nameOf f2 ≠ "note".data ∧ nameOf f2 ≠ "url".data ∧ nameOf f2 ≠ "urldate".data)) := by
  intro fs
  induction fs with
  | nil => intro st _; exact ⟨rfl, fun f2 h => Or.inl h⟩
  | cons g fs ih =>
    intro st hgood
    have hg := hgood g (List.mem_cons_self _ _)
    have hstep := processField_clean key st g hg.1 hg.2.1 hg.2.2.1 hg.2.2.2
    have hih := ih (processField key st g) (fun x hx => hgood x (List.mem_cons_of_mem _ hx))
    rw [List.foldl_cons]
    refine ⟨by rw [hih.1, hstep.1], ?_⟩
    intro f2 hf2
    rcases hih.2 f2 hf2 with h1 | h1
    · exact hstep.2 f2 h1
    · exact Or.inr h1

theorem anyName_false (nf : List BibField) (nm : Str)
    (h : ∀ f2 ∈ nf, nameOf f2 ≠ nm) :
    nf.any (fun f => nameOf f = nm) = false := by
  rw [List.any_eq_false]
  intro f2 hf2
  simp only [decide_eq_true_eq]
  exact h f2 hf2

theorem notePost_adds (note : Str) (nf : List BibField) (u d : Str)
    (hn : note ≠ []) (hnourl : ∀ f2 ∈ nf, nameOf f2 ≠ "url".data)
    (hnoud : ∀ f2 ∈ nf, nameOf f2 ≠ "urldate".data)
    (hex : extractUrlAndAccess note = (some u, some d)) (hu : u ≠ []) (hd : d ≠ []) :
    (firstIndent nf, "url".data, u) ∈ notePost (some note) nf ∧
    (∃ i, (i, "urldate".data, d) ∈ notePost (some note) nf) := by
  have hany : nf.any (fun f => nameOf f = "url".data) = false := anyName_false nf _ hnourl
  have hany2 : (nf ++ [(firstIndent nf, "url".data, u)]).any
      (fun f => nameOf f = "urldate".data) = false := by
    apply anyName_false
    intro f2 hf2
    rcases List.mem_append.mp hf2 with h1 | h2
    · exact hnoud f2 h1
    · rw [List.mem_singleton.mp h2]
      show "url".data ≠ "urldate".data
      decide
  unfold notePost
  rw [if_pos ⟨by simp [truthyOpt, hn], by rw [hany]; decide⟩]
  dsimp only
  simp only [Option.getD_some]
  rw [hex]
  dsimp only
  have hinner : (if truthyOpt (some u) = true then
      nf ++ [(firstIndent nf, "url".data, (some u).getD [])] else nf) =
      nf ++ [(firstIndent nf, "url".data, u)] := by
    rw [if_pos (by simp [truthyOpt, hu])]
    rfl
  rw [hinner]
  rw [if_pos ⟨by simp [truthyOpt, hd], by rw [hany2]; decide⟩]
  constructor
  · exact List.mem_append_left _ (List.mem_append_right _ (List.mem_singleton.mpr rfl))
  · exact ⟨_, List.mem_append_right _ (List.mem_singleton.mpr rfl)⟩

/-- C4: a record whose note value is trivial (only an availability marker
with a URL and an accessed-on marker with a date) loses its note field
under normalization, and, when no url or urldate fields are present or
producible elsewhere, gains url and urldate fields carrying exactly the
values extracted from the note. -/
theorem C4_note_collapsing :
    ∀ (entryType key i0 nname nval u d : Str) (pre post : List BibField) (m : EMap),
      pyLower nname = "note".data →
      isTrivialNote (pyStrip nval) = true →
      extractUrlAndAccess (pyStrip nval) = (some u, some d) →
      u ≠ [] → d ≠ [] →
      (∀ g ∈ pre ++ post, pyLower (nameOf g) ≠ "note".data ∧
        pyLower (nameOf g) ≠ "url".data ∧ pyLower (nameOf g) ≠ "urldate".data ∧
        pyLower (nameOf g) ≠ "crossref".data ∧
        (pyLower (nameOf g) ∈ journalLikeNames →
          hasDispOrHttp (pyStrip (valOf g)) = false)) →
      ((∀ f2 ∈ normalizeFields entryType key (pre ++ (i0, nname, nval) :: post) m,
          nameOf f2 ≠ "note".data) ∧
       (∃ i, (i, "url".data, u) ∈
          normalizeFields entryType key (pre ++ (i0, nname, nval) :: post) m) ∧
       (∃ i, (i, "urldate".data, d) ∈
          normalizeFields entryType key (pre ++ (i0, nname, nval) :: post) m)) := by
  intro entryType key i0 nname nval u d pre post m h1 h2 hex hu hd hgood
  have hpre : ∀ g ∈ pre, pyLower (nameOf g) ≠ "note".data ∧
      pyLower (nameOf g) ≠ "url".data ∧ pyLower (nameOf g) ≠ "urldate".data ∧
      (pyLower (nameOf g) ∈ journalLikeNames →
        hasDispOrHttp (pyStrip (valOf g)) = false) := by
    intro g hg
    have h := hgood g (List.mem_append_left _ hg)
    exact ⟨h.1, h.2.1, h.2.2.1, h.2.2.2.2⟩
  have hpost : ∀ g ∈ post, pyLower (nameOf g) ≠ "note".data ∧
      pyLower (nameOf g) ≠ "url".data ∧ pyLower (nameOf g) ≠ "urldate".data ∧
      (pyLower (nameOf g) ∈ journalLikeNames →
        hasDispOrHttp (pyStrip (valOf g)) = false) := by
    intro g hg
    have h := hgood g (List.mem_append_right _ hg)
    exact ⟨h.1, h.2.1, h.2.2.1, h.2.2.2.2⟩
  have hvne : pyStrip nval ≠ [] := by
    intro hc
    rw [hc] at hex
    have hnil : extractUrlAndAccess ([] : Str) = (none, none) := rfl
    rw [hnil] at hex
    cases hex
  have hnocr : findCrossrefKey (pre ++ (i0, nname, nval) :: post) = none := by
    unfold findCrossrefKey
    rw [List.find?_eq_none.mpr]
    · rfl
    · intro f hf
      simp only [decide_eq_true_eq]
      rcases List.mem_append.mp hf with hp | hq
      · exact (hgood f (List.mem_append_left _ hp)).2.2.2.1
      · rcases List.mem_cons.mp hq with heq | hq2
        · rw [heq]
          show ¬ (pyLower nname = "crossref".data)
          rw [h1]
          decide
        · exact (hgood f (List.mem_append_right _ hq2)).2.2.2.1
  have hnf : normalizeFields entryType key (pre ++ (i0, nname, nval) :: post) m =
      normalizeCore entryType key (pre ++ (i0, nname, nval) :: post) := by
    unfold normalizeFields
    rw [hnocr]
  have hstep : (pre ++ (i0, nname, nval) :: post).foldl (processField key)
      { nf := [], note := none } =
      post.foldl (processField key)
        { nf := (pre.foldl (processField key) { nf := [], note := none }).nf,
          note := some (pyStrip nval) } := by
    rw [List.foldl_append, List.foldl_cons,
      processField_trivial_note key _ (i0, nname, nval) h1 h2]
    rfl
  have hclean1 := foldl_clean key pre { nf := [], note := none } hpre
  have hclean3 := foldl_clean key post
    { nf := (pre.foldl (processField key) { nf := [], note := none }).nf,
      note := some (pyStrip nval) } hpost
  have hcleanAll : ∀ f2 ∈ (post.foldl (processField key)
      { nf := (pre.foldl (processField key) { nf := [], note := none }).nf,
        note := some (pyStrip nval) }).nf,
      nameOf f2 ≠ "note".data ∧ nameOf f2 ≠ "url".data ∧ nameOf f2 ≠ "urldate".data := by
    intro f2 hf2
    rcases hclean3.2 f2 hf2 with hmem | hcl
    · rcases hclean1.2 f2 hmem with habs | hcl2
      · cases habs
      · exact hcl2
    · exact hcl
  set st3 := post.foldl (processField key)
    { nf := (pre.foldl (processField key) { nf := [], note := none }).nf,
      note := some (pyStrip nval) } with hst3
  have h4clean : ∀ f2 ∈ bardinPost key st3.nf, nameOf f2 ≠ "note".data ∧
      nameOf f2 ≠ "url".data ∧ nameOf f2 ≠ "urldate".data := by
    intro f2 hf2
    rcases bardinPost_names key st3.nf f2 hf2 with hm | hn | hn
    · exact hcleanAll f2 hm
    · rw [hn]
      exact ⟨by decide, by decide, by decide⟩
    · rw [hn]
      exact ⟨by decide, by decide, by decide⟩
  have hadds := notePost_adds (pyStrip nval) (bardinPost key st3.nf) u d hvne
    (fun f2 hf2 => (h4clean f2 hf2).2.1) (fun f2 hf2 => (h4clean f2 hf2).2.2) hex hu hd
  have hnote3 : st3.note = some (pyStrip nval) := hclean3.1
  rw [hnf]
  unfold normalizeCore
  dsimp only
  rw [hstep, hnote3]
  refine ⟨?_, ?_, ?_⟩
  · intro f2 hf2
    rcases langPost_names _ f2 hf2 with hA | hA
    · rcases miscPost_names _ _ _ _ f2 hA with hB | hB | hB | hB | hB
      · rcases notePost_names _ _ f2 hB with hC | hC | hC
        · exact (h4clean f2 hC).1
        · rw [hC]; decide
        · rw [hC]; decide
      · rw [hB]; decide
      · rw [hB]; decide
      · rw [hB]; decide
      · rw [hB]; decide
    · rw [hA]; decide
  · exact ⟨firstIndent (bardinPost key st3.nf),
      langPost_super _ _ (miscPost_super _ _ _ _ _ hadds.1)⟩
  · obtain ⟨i, hmem⟩ := hadds.2
    exact ⟨i, langPost_super _ _ (miscPost_super _ _ _ _ _ hmem)⟩

/-- Witness for C4 at a concrete record: a title plus a trivial note. -/
theorem C4_witness :
    (∀ f2 ∈ normalizeFields "misc".data "x".data
        ([("  ".data, "title".data, "Algo".data)] ++
          ("  ".data, "note".data,
            "Disponível em: <https://ex>. Acesso em: 17 de abril de 2025.".data) :: []) [],
      nameOf f2 ≠ "note".data) ∧
    (∃ i, (i, "url".data, "https://ex".data) ∈
      normalizeFields "misc".data "x".data
        ([("  ".data, "title".data, "Algo".data)] ++
          ("  ".data, "note".data,
            "Disponível em: <https://ex>. Acesso em: 17 de abril de 2025.".data) :: []) []) ∧
    (∃ i, (i, "urldate".data, "2025-04-17".data) ∈
      normalizeFields "misc".data "x".data
        ([("  ".data, "title".data, "Algo".data)] ++
          ("  ".data, "note".data,
            "Disponível em: <https://ex>. Acesso em: 17 de abril de 2025.".data) :: []) []) :=
  C4_note_collapsing "misc".data "x".data "  ".data "note".data
    "Disponível em: <https://ex>. Acesso em: 17 de abril de 2025.".data
    "https://ex".data "2025-04-17".data
    [("  ".data, "title".data, "Algo".data)] [] []
    (by decide) (by decide) (by rfl) (by decide) (by decide) (by decide)

/-- The fingerprints the main loop computes for its parsed records, in
document order (parse failures carry no fingerprint). -/
def pipeFps (emap : EMap) (parsed : List PRec) : List Fp :=
  parsed.filterMap (fun r =>
    if r.1 = [] then none
    else some (entryFingerprint r.1 r.2.1
      (orderFields r.1 (normalizeFields r.1 r.2.1 r.2.2.1 emap))))

theorem pipeAux_zero (emap : EMap) :
    ∀ (parsed : List PRec) (seen : List Fp),
      (∀ r ∈ parsed, r.1 ≠ [] →
        orderFields r.1 (normalizeFields r.1 r.2.1 r.2.2.1 emap) = r.2.2.1) →
      List.Pairwise (fun a b => anyFp a = true → a ≠ b) (pipeFps emap parsed) →
      (∀ x ∈ pipeFps emap parsed, anyFp x = true → x ∉ seen) →
      (pipeAux emap parsed seen).2.1 = 0 ∧ (pipeAux emap parsed seen).2.2 = 0 := by
  intro parsed
  induction parsed with
  | nil => intro seen _ _ _; exact ⟨rfl, rfl⟩
  | cons r rest ih =>
    intro seen hfix hpair hinv
    by_cases ht : r.1 = []
    · have hfps : pipeFps emap (r :: rest) = pipeFps emap rest := by
        unfold pipeFps
        rw [List.filterMap_cons, if_pos ht]
      rw [hfps] at hpair hinv
      have hrec := ih seen (fun x hx => hfix x (List.mem_cons_of_mem _ hx)) hpair hinv
      unfold pipeAux
      rw [if_pos ht]
      exact hrec
    · have hnf := hfix r (List.mem_cons_self _ _) ht
      have hfps : pipeFps emap (r :: rest) =
          entryFingerprint r.1 r.2.1
            (orderFields r.1 (normalizeFields r.1 r.2.1 r.2.2.1 emap)) ::
          pipeFps emap rest := by
        unfold pipeFps
        rw [List.filterMap_cons, if_neg ht]
      rw [hfps] at hpair hinv
      have hpairTail := (List.pairwise_cons.mp hpair).2
      have hrel := (List.pairwise_cons.mp hpair).1
      set fp := entryFingerprint r.1 r.2.1
        (orderFields r.1 (normalizeFields r.1 r.2.1 r.2.2.1 emap)) with hfp
      have hinvTail : ∀ x ∈ pipeFps emap rest, anyFp x = true →
          x ∉ (if anyFp fp = true then fp :: seen else seen) := by
        intro x hx hax
        by_cases haf : anyFp fp = true
        · rw [if_pos haf]
          intro hmem
          rcases List.mem_cons.mp hmem with heq | hmem2
          · exact (hrel x hx haf) heq.symm
          · exact (hinv x (List.mem_cons_of_mem _ hx) hax) hmem2
        · rw [if_neg haf]
          exact hinv x (List.mem_cons_of_mem _ hx) hax
      have hrec := ih (if anyFp fp = true then fp :: seen else seen)
        (fun x hx => hfix x (List.mem_cons_of_mem _ hx)) hpairTail hinvTail
      have hnotseen : ¬ (anyFp fp = true ∧ fp ∈ seen) := by
        rintro ⟨haf, hmem⟩
        exact (hinv fp (List.mem_cons_self _ _) haf) hmem
      unfold pipeAux
      rw [if_neg ht, if_neg hnotseen]
      dsimp only
      rw [← hfp]
      refine ⟨hrec.1, ?_⟩
      have hchg : (if orderFields r.1 (normalizeFields r.1 r.2.1 r.2.2.1 emap) ≠ r.2.2.1
          then 1 else 0) = 0 := by
        rw [if_neg]
        intro hc
        exact hc hnf
      rw [hchg, hrec.2]

/-- C2 (amended): for a document in which every successfully parsed
record's field list is a fixed point of normalization-plus-ordering and
the fingerprints of parsed records are pairwise distinct whenever
nonempty, the pipeline reports zero modified and zero dropped records;
the unconditional claim fails (see the counterexample). -/
theorem C2_amended :
    ∀ text : Str,
      (∀ r ∈ parseResults text, r.1 ≠ [] →
        orderFields r.1 (normalizeFields r.1 r.2.1 r.2.2.1 (entriesMapOf text)) = r.2.2.1) →
      List.Pairwise (fun a b => anyFp a = true → a ≠ b)
        (pipeFps (entriesMapOf text) (parseResults text)) →
      (runPipeline text).changed = 0 ∧ (runPipeline text).dropped = 0 := by
  intro text hfix hpair
  have h := pipeAux_zero (entriesMapOf text) (parseResults text) [] hfix hpair
    (fun x _ _ hmem => absurd hmem (List.not_mem_nil _))
  exact ⟨h.2, h.1⟩

/-- Witness for the amended C2 at a concrete already-normalized document. -/
theorem C2_witness :
    (runPipeline "@misc\x7bk,\n  howpublished = \x7bOnline\x7d,\n  url = \x7bhttp://a.com\x7d,\n\x7d\n".data).changed = 0 ∧
    (runPipeline "@misc\x7bk,\n  howpublished = \x7bOnline\x7d,\n  url = \x7bhttp://a.com\x7d,\n\x7d\n".data).dropped = 0 :=
  C2_amended "@misc\x7bk,\n  howpublished = \x7bOnline\x7d,\n  url = \x7bhttp://a.com\x7d,\n\x7d\n".data
    (by decide) (by decide)
